import Mathlib

/-!
# Verification of the flux-modprobe task planner and executor

A shallow embedding of `src/bindings/python/flux/modprobe.py` (the task
database, enable predicates, dependency solver, predecessor-graph builder,
needs pruning, removal planner, and a trace model of the parallel executor),
together with theorems settling the specification claims about it.

External collaborators (broker attribute/config lookup, the IDset string
parser, the broker RPC peer) are out of scope of the source and are modelled
as oracles, as the specification directs.
-/

namespace Modprobe

/-- Rank predicate, the parsed form of the `ranks` string produced by
`rank_conditional` in the source: either the `all` idset, an explicit idset
(membership modelled from the spec: RFC-22 idsets denote sets of non-negative
integers; the parser `flux.idset.IDset` is an external collaborator), or a
`>N` / `<N` conditional (`RankConditional`). -/
inductive Ranks where
  | all : Ranks
  | idset (ranks : List Nat) : Ranks
  | gt (rank : Nat) : Ranks
  | lt (rank : Nat) : Ranks
deriving DecidableEq, Repr

/-- `RankIDset.test` / `RankConditional.test` from the source. -/
def Ranks.test : Ranks → Nat → Bool
  | .all, _ => true
  | .idset l, r => l.contains r
  | .gt n, r => decide (r > n)
  | .lt n, r => decide (r < n)

/-- A task record: the metadata fields of class `Task` in the source
(`VALID_ARGS` plus `name`).  The body (`run`) and the recorded
`starttime`/`endtime` are handled by the executor trace model, and the
load/remove distinction of `Module` by the removal planner; the planner and
builder only read these fields. -/
structure Task where
  name : String
  provides : List String
  requires : List String
  needs : List String
  before : List String
  after : List String
  ranks : Ranks
  requires_attrs : List String
  requires_config : List String
  disabled : Bool
deriving DecidableEq, Repr

/-- A task with every `VALID_ARGS` field at its source default. -/
def Task.mk0 (name : String) : Task :=
  ⟨name, [], [], [], [], [], Ranks.all, [], [], false⟩

/-- The per-run context state the enable predicate reads.  `conf` and `attrs`
give the truthiness of `context.handle.conf_get key` and `context.attr_get
attr` — broker lookups that are external collaborators, so they are oracles
here (absent keys are falsy). -/
structure Context where
  rank : Nat
  conf : String → Bool
  attrs : String → Bool

/-- `Task.enabled` from the source: false when the task is disabled, its rank
predicate rejects the local rank, or any `requires_config` /
`requires_attrs` key is absent or falsy. -/
def Task.enabled (t : Task) (ctx : Context) : Bool :=
  !t.disabled && t.ranks.test ctx.rank
    && t.requires_config.all ctx.conf && t.requires_attrs.all ctx.attrs

/-! ## TaskDB

The Python `TaskDB` keeps `tasks : defaultdict(list)`, whose lists hold
*references* to shared `Task` objects (one task object appears under its own
name and under each of its `provides` aliases).  To keep that aliasing — in
particular `disable`, which mutates the shared objects — the embedding stores
every task object once in `store` (its position is its identity) and keeps
the per-key lists as lists of store positions. -/
structure TaskDB where
  store : List Task
  index : List (String × List Nat)
deriving Repr

def TaskDB.empty : TaskDB := ⟨[], []⟩

/-- The list `db.tasks[service]` (a missing key reads as the empty list). -/
def TaskDB.ids (db : TaskDB) (service : String) : List Nat :=
  ((db.index.find? (fun p => p.1 = service)).map Prod.snd).getD []

/-- Append one id under one key, creating the key at the tail as
`defaultdict` does on first write. -/
def indexAppend (ix : List (String × List Nat)) (name : String) (id : Nat) :
    List (String × List Nat) :=
  if ix.any (fun p => p.1 = name) then
    ix.map (fun p => if p.1 = name then (p.1, p.2 ++ [id]) else p)
  else
    ix ++ [(name, [id])]

/-- `TaskDB.add`: append the task to the list under each `provides` alias and
under its own name (in that order, as the source does). -/
def TaskDB.add (db : TaskDB) (t : Task) : TaskDB :=
  let id := db.store.length
  ⟨db.store ++ [t],
   (t.provides ++ [t.name]).foldl (fun ix name => indexAppend ix name id) db.index⟩

/-- `TaskDB.get`: the tail of the list for `service`; `ValueError` ("no such
task or module") when the list is missing or empty.  The second error case
(a dangling store position) cannot arise for databases built with `add`. -/
def TaskDB.get (db : TaskDB) (service : String) : Except String Task :=
  match (db.ids service).getLast? with
  | none => .error ("no such task or module " ++ service)
  | some i =>
    match db.store.get? i with
    | some t => .ok t
    | none => .error ("invalid task position " ++ toString i)

/-- Set `disabled` on the store entries at the given positions (`j` is the
position of the head of `l` in the full store). -/
def markDisabled : List Task → Nat → List Nat → List Task
  | [], _, _ => []
  | t :: ts, j, ids =>
    (if ids.contains j then { t with disabled := true } else t)
      :: markDisabled ts (j + 1) ids

/-- `TaskDB.disable`: mark every entry under `service` disabled.  Because the
entries are shared objects, the change is visible under every key that lists
the same task. -/
def TaskDB.disable (db : TaskDB) (service : String) : TaskDB :=
  ⟨markDisabled db.store 0 (db.ids service), db.index⟩

/-- Replace the id list stored under one key. -/
def indexSet (ix : List (String × List Nat)) (name : String) (l : List Nat) :
    List (String × List Nat) :=
  ix.map (fun p => if p.1 = name then (p.1, l) else p)

/-- `next(i for i, x in enumerate(lst) if ...)`: index of the first element
satisfying the predicate. -/
def findIndex (p : α → Bool) : List α → Option Nat
  | [] => none
  | x :: xs => if p x then some 0 else (findIndex p xs).map (fun k => k + 1)

/-- `TaskDB.set_alternative`: with `none` (the Python `None` sentinel),
disable the service; otherwise rotate the first entry under `service` whose
task is named `name` to the tail (`lst.append(lst.pop(index))`), failing with
`ValueError` when no entry matches. -/
def TaskDB.set_alternative (db : TaskDB) (service : String) (name : Option String) :
    Except String TaskDB :=
  match name with
  | none => .ok (db.disable service)
  | some nm =>
    let ids := db.ids service
    match findIndex (fun i => (db.store.get? i).map Task.name = some nm) ids with
    | none => .error ("no module " ++ nm ++ " provides " ++ service)
    | some k =>
      .ok ⟨db.store, indexSet db.index service (ids.eraseIdx k ++ [ids.getD k 0])⟩

/-- Resolve (or otherwise map fallibly) every element of a list, left to
right, propagating the first error — the evaluation order of a Python list
comprehension such as `[self.get(x) for x in tasks]`. -/
def mapE (f : α → Except String β) : List α → Except String (List β)
  | [] => .ok []
  | x :: xs =>
    match f x with
    | .error e => .error e
    | .ok y =>
      match mapE f xs with
      | .error e => .error e
      | .ok ys => .ok (y :: ys)

/-- Fallible filter, left to right — the evaluation order of a guarded
Python list comprehension. -/
def filterE (p : α → Except String Bool) : List α → Except String (List α)
  | [] => .ok []
  | x :: xs =>
    match p x with
    | .error e => .error e
    | .ok b =>
      match filterE p xs with
      | .error e => .error e
      | .ok rest => .ok (if b then x :: rest else rest)

/-- `TaskDB.any_provides`: the source first resolves *every* element of
`tasks` (`[self.get(x) for x in tasks]`, evaluated in full before the loop
runs), so a dangling element raises even when an earlier element matches;
then it reports whether any resolved, non-disabled task has `name` equal to
its name or listed in its `provides`. -/
def TaskDB.any_provides (db : TaskDB) (tasks : List String) (name : String) :
    Except String Bool :=
  match mapE db.get tasks with
  | .error e => .error e
  | .ok resolved =>
    .ok (resolved.any (fun t => !t.disabled && (name = t.name || t.provides.contains name)))

example :
    (TaskDB.empty.add (Task.mk0 "a")).get "a" = .ok (Task.mk0 "a") := by rfl
example :
    (TaskDB.empty.add (Task.mk0 "a")).get "b" =
      .error "no such task or module b" := by rfl

/-! ## Needs pruning (`Modprobe.process_needs`)

The Python method iterates over a snapshot (`tasks.copy()`) of the list while
removing names from the list itself in place; each `any_provides` test runs
against the current, partially pruned list.  The embedding threads the
current list explicitly and returns its final value (the same list object,
in the source). -/

/-- The inner `for need in task.needs` loop of `process_needs`: when a need is
unprovided by the current list, remove the first occurrence of `name`
(`if name in tasks: tasks.remove(name)`). -/
def needsLoop (db : TaskDB) (name : String) :
    List String → List String → Except String (List String)
  | [], cur => .ok cur
  | need :: rest, cur =>
    match db.any_provides cur need with
    | .error e => .error e
    | .ok b =>
      needsLoop db name rest (if b then cur else if cur.contains name then cur.erase name else cur)

/-- The outer `for name in tasks.copy()` loop of `process_needs`: the first
argument is the snapshot being iterated, the second the live list. -/
def processNeedsGo (db : TaskDB) :
    List String → List String → Except String (List String)
  | [], cur => .ok cur
  | name :: rest, cur =>
    match db.get name with
    | .error e => .error e
    | .ok task =>
      match needsLoop db name task.needs cur with
      | .error e => .error e
      | .ok cur2 => processNeedsGo db rest cur2

/-- `Modprobe.process_needs`: remove (in one pass) the tasks whose `needs`
are not met by the current list. -/
def process_needs (db : TaskDB) (tasks : List String) : Except String (List String) :=
  processNeedsGo db tasks tasks

/-- Reading the `Modprobe.active_tasks` property: prune `_active_tasks` with
`process_needs` (which mutates and returns the stored list itself — the
second component is the list the orchestrator keeps afterwards), then filter
the view by the enable predicate. -/
def active_tasks (db : TaskDB) (ctx : Context) (active : List String) :
    Except String (List String × List String) :=
  match process_needs db active with
  | .error e => .error e
  | .ok pruned =>
    match filterE (fun name => (db.get name).map (fun t => t.enabled ctx)) pruned with
    | .error e => .error e
    | .ok view => .ok (view, pruned)

/-! ## The solver (`Modprobe.solve_tasks_recursive`)

The Python function recurses with no depth guard, so the embedding is
fuel-indexed: `none` means the given recursion depth was exhausted (the
Python process would still be recursing — with unbounded depth, a
`RecursionError`).  `result`, `visited` and `skipped` are Python sets shared
down the recursion, threaded here as a state record; `result` is equally the
union of the per-call sets the source builds, since every per-call `result`
is merged into its caller with `result.update(rset)`. -/
structure SolveState where
  result : List String
  visited : List String
  skipped : List String
deriving Repr, DecidableEq

/-- Python `set.add` on a set represented as its insertion-ordered list. -/
def insertName (l : List String) (x : String) : List String :=
  if l.contains x then l else l ++ [x]

mutual

/-- One call of `solve_tasks_recursive`: take the unvisited snapshot
(`to_visit = [x for x in tasks if x not in visited]`, computed once at
entry) and run the body loop over it. -/
def solve_tasks_recursive (db : TaskDB) (ctx : Context) :
    Nat → List String → SolveState → Option (Except String SolveState)
  | 0, _, _ => none
  | fuel + 1, tasks, st =>
    solveLoop db ctx fuel (tasks.filter (fun x => !st.visited.contains x)) st
termination_by fuel _ _ => (fuel, 0)

/-- The `for name in to_visit` loop body: resolve the name (a dangling
reference raises), record the resolved name in `result` or `skipped` by
enablement, mark it visited, and recurse into a non-empty `requires`. -/
def solveLoop (db : TaskDB) (ctx : Context) :
    Nat → List String → SolveState → Option (Except String SolveState)
  | _, [], st => some (.ok st)
  | fuel, name :: rest, st =>
    match db.get name with
    | .error e => some (.error e)
    | .ok task =>
      let st1 : SolveState :=
        if task.enabled ctx then
          ⟨insertName st.result task.name, insertName st.visited task.name, st.skipped⟩
        else
          ⟨st.result, insertName st.visited task.name, insertName st.skipped task.name⟩
      if task.requires.isEmpty then
        solveLoop db ctx fuel rest st1
      else
        match solve_tasks_recursive db ctx fuel task.requires st1 with
        | none => none
        | some (.error e) => some (.error e)
        | some (.ok st2) => solveLoop db ctx fuel rest st2
termination_by fuel pending _ => (fuel, pending.length + 1)

end

/-- `Modprobe.solve`: the top-level call, with empty result/visited/skipped
sets (the timing bookkeeping around it does not change the value). -/
def solve (db : TaskDB) (ctx : Context) (fuel : Nat) (tasks : List String) :
    Option (Except String (List String)) :=
  (solve_tasks_recursive db ctx fuel tasks ⟨[], [], []⟩).map (·.map SolveState.result)

/-- The names reachable from the seed list through `requires` edges, each
step resolving the current name through the DB — the reference reachability
relation of the specification claims. -/
inductive Reach (db : TaskDB) (seed : List String) : String → Prop
  | seed {x : String} : x ∈ seed → Reach db seed x
  | step {x r : String} {t : Task} :
      Reach db seed x → db.get x = .ok t → r ∈ t.requires → Reach db seed r

/-- The database resolves canonically: the name a task is stored under by
itself (`t.name`) currently resolves back to that same task.  This holds
whenever no task's `provides` alias or duplicate registration shadows
another task's own name (the specification makes duplicate registration an
`InvalidArgument` error). -/
def Canonical (db : TaskDB) : Prop :=
  ∀ x t, db.get x = .ok t → db.get t.name = .ok t

/-! ## The predecessor-graph builder (`Modprobe.get_deps` / `process_before`)

`deps` is a Python `dict` built in insertion order, embedded as an
association list; `depsLookup` reads like Python key lookup. -/

abbrev Deps := List (String × List String)

def depsLookup (d : Deps) (k : String) : Option (List String) :=
  (d.find? (fun p => p.1 = k)).map Prod.snd

def hasKey (d : Deps) (k : String) : Bool :=
  d.any (fun p => p.1 = k)

/-- Python `deps[k] = v`: overwrite, or create the key at the tail. -/
def depsSet (d : Deps) (k : String) (v : List String) : Deps :=
  if hasKey d k then d.map (fun p => if p.1 = k then (k, v) else p)
  else d ++ [(k, v)]

/-- Python `deps[k].append(x)` on a present key. -/
def depsAppend (d : Deps) (k : String) (x : String) : Deps :=
  d.map (fun p => if p.1 = k then (p.1, p.2 ++ [x]) else p)

/-- The loop of `deps_add_all` once the keys are resolved: append `name` as a
predecessor under every resolved key task whose `before` does not contain
`"*"`; a resolved name that is not a key is Python's `KeyError`. -/
def addAllGo (name : String) : List Task → Deps → Except String Deps
  | [], acc => .ok acc
  | task :: rest, acc =>
    if task.before.contains "*" then addAllGo name rest acc
    else if hasKey acc task.name then addAllGo name rest (depsAppend acc task.name name)
    else .error ("KeyError: " ++ task.name)

/-- `deps_add_all` (local function of `process_before`): the source resolves
every key first (`[self.get_task(x) for x in deps.keys()]`), then appends. -/
def deps_add_all (db : TaskDB) (d : Deps) (name : String) : Except String Deps :=
  match mapE db.get (d.map Prod.fst) with
  | .error e => .error e
  | .ok tasks => addAllGo name tasks d

/-- The `for successor in task.before` loop of `process_before` for the task
named `tname`: `"*"` fans out through `deps_add_all`; any other entry is
resolved and, when its resolved name is a key, receives `tname` as an extra
predecessor. -/
def beforeEntryGo (db : TaskDB) (tname : String) :
    List String → Deps → Except String Deps
  | [], acc => .ok acc
  | succ :: rest, acc =>
    if succ = "*" then
      match deps_add_all db acc tname with
      | .error e => .error e
      | .ok acc2 => beforeEntryGo db tname rest acc2
    else
      match db.get succ with
      | .error e => .error e
      | .ok u =>
        beforeEntryGo db tname rest
          (if hasKey acc u.name then depsAppend acc u.name tname else acc)

/-- The `for name in tasks` loop of `process_before`. -/
def beforeGo (db : TaskDB) : List String → Deps → Except String Deps
  | [], acc => .ok acc
  | name :: rest, acc =>
    match db.get name with
    | .error e => .error e
    | .ok task =>
      match beforeEntryGo db task.name task.before acc with
      | .error e => .error e
      | .ok acc2 => beforeGo db rest acc2

/-- `Modprobe.process_before`. -/
def process_before (db : TaskDB) (tasks : List String) (d : Deps) :
    Except String Deps :=
  beforeGo db tasks d

/-- The `for name in tasks` loop of `get_deps` building the `after` edges:
with `"*"` in `after`, every other member of `tasks` (resolved) becomes a
predecessor; otherwise the resolved `after` names intersected with `tasks`. -/
def afterGo (db : TaskDB) (tasks : List String) :
    List String → Deps → Except String Deps
  | [], acc => .ok acc
  | name :: rest, acc =>
    match db.get name with
    | .error e => .error e
    | .ok task =>
      match
        (if task.after.contains "*" then
          mapE (fun x => (db.get x).map Task.name) (tasks.filter (fun x => x ≠ task.name))
        else
          match mapE (fun x => (db.get x).map Task.name) task.after with
          | .error e => .error e
          | .ok ats => .ok (ats.filter (fun x => tasks.contains x))) with
      | .error e => .error e
      | .ok v => afterGo db tasks rest (depsSet acc task.name v)

/-- `Modprobe.get_deps`: build the `after` edges, then fold the `before`
edges in with `process_before` (the timing bookkeeping does not change the
value). -/
def get_deps (db : TaskDB) (tasks : List String) : Except String Deps :=
  match afterGo db tasks tasks [] with
  | .error e => .error e
  | .ok d => process_before db tasks d

/-- Name resolution as the reference definition uses it (total under the
resolvability hypotheses of the claims; the fallback branch is irrelevant
there). -/
def specResolveName (db : TaskDB) (x : String) : String :=
  match db.get x with
  | .ok t => t.name
  | .error _ => x

/-- The reference predecessor relation, stated from the specification's
words for the refinement claim about `get_deps` (§4.4 rules 1 and 2): `y` is
a predecessor of `u` in the built graph over the solved set `S` iff either
`u`'s task has `"*"` in `after` and `y` is any other member of `S`, or `y`
is a resolved `after` name of `u`'s task lying in `S`, or some task `t ∈ S`
lists `"*"` in `before` while `u`'s own task does not (the exclusion rule),
or some task `t ∈ S` lists a non-`"*"` `before` entry resolving to `u`; in
the last two cases `y` is `t`'s resolved name. -/
def specIsPredecessor (db : TaskDB) (S : List String) (u y : String) : Bool :=
  match db.get u with
  | .error _ => false
  | .ok tu =>
    (if tu.after.contains "*" then S.contains y && decide (y ≠ u)
     else S.contains y && tu.after.any (fun x => specResolveName db x = y))
    ||
    S.any (fun x =>
      match db.get x with
      | .ok tx =>
        decide (y = tx.name) &&
          (tx.before.contains "*" && !tu.before.contains "*"
            || tx.before.any (fun s => decide (s ≠ "*") && specResolveName db s = u))
      | .error _ => false)

/-! ## The executor (`Modprobe.run`) as a trace model

`run` drains a `TopologicalSorter` with a thread pool: a task is submitted
(at most once, the `started` dict) only when `get_ready` yields it, which
happens only after `sorter.done(p)` was called for every predecessor `p`,
and `done(p)` is called only after `p`'s future completed — whether `p`
succeeded or raised.  The interleaving of the worker threads is outside the
program, so a run is modelled as a trace of start/finish events; validity of
a step is exactly the submission discipline of the loop.  The sorter
(`flux.utils.graphlib.TopologicalSorter`) is repository code not included
under `src/`; its ready/done behaviour here is modelled from the spec
(§4.5): ready = not yet handed out and every predecessor done.  `get_deps`
graphs are closed (every listed predecessor is a key), which is the shape
this model covers. -/
inductive Ev where
  | start (name : String) : Ev
  | finish (name : String) : Ev
deriving DecidableEq, Repr

/-- The predecessor list of `s` (`deps[s]`). -/
def predsOf (deps : Deps) (s : String) : List String :=
  (depsLookup deps s).getD []

/-- Validity of a trace continuation given the names already submitted and
the names already marked done: a task starts only if it is a node, was not
started before, and all its predecessors are done; it finishes only if it
started and did not finish yet.  Task failure does not appear here: the
executor marks failed tasks done all the same. -/
def okTraceFrom (deps : Deps) : List Ev → List String → List String → Bool
  | [], _, _ => true
  | .start s :: rest, started, finished =>
    hasKey deps s && !started.contains s
      && (predsOf deps s).all finished.contains
      && okTraceFrom deps rest (s :: started) finished
  | .finish s :: rest, started, finished =>
    started.contains s && !finished.contains s
      && okTraceFrom deps rest started (s :: finished)

/-- A valid run of `Modprobe.run` on `deps`, from the initial state. -/
def okTrace (deps : Deps) (tr : List Ev) : Bool :=
  okTraceFrom deps tr [] []

/-- A run that has finished every node of the graph. -/
def completeTrace (deps : Deps) (tr : List Ev) : Bool :=
  okTrace deps tr && (deps.map Prod.fst).all (fun k => tr.contains (.finish k))

/-- Index of the first occurrence of an event in a trace. -/
def evIdx (e : Ev) : List Ev → Option Nat
  | [] => none
  | x :: rest => if x = e then some 0 else (evIdx e rest).map (· + 1)

/-- Index of the (unique, in a valid trace) start event of `s`: the moment
`Task.runtask` records `self.starttime = time.time()`. -/
def startIdx (tr : List Ev) (s : String) : Option Nat :=
  evIdx (.start s) tr

/-- Index of the finish event of `s`: the `finally:` hook recording
`self.endtime = time.time()`. -/
def endIdx (tr : List Ev) (s : String) : Option Nat :=
  evIdx (.finish s) tr

/-- The names finished along a trace, in order. -/
def finishes : List Ev → List String
  | [] => []
  | .start _ :: rest => finishes rest
  | .finish s :: rest => s :: finishes rest

/-- The standard-error lines of a run: on each completed future whose task
raised, the loop prints exactly `f"{task.name}: {exc}"` once (each future is
submitted once and deleted after processing).  `fails` tells which task
bodies raise and `emsg` the exception text — both oracles for the task
bodies, which are external to the executor. -/
def stderrOf (fails : String → Bool) (emsg : String → String) : List Ev → List String
  | [] => []
  | .start _ :: rest => stderrOf fails emsg rest
  | .finish s :: rest =>
    (if fails s then [s ++ ": " ++ emsg s] else []) ++ stderrOf fails emsg rest

/-- `self.exitcode` over a run: starts at the given value (0 in a fresh
`Modprobe`) and is set to 1 whenever a completed future raised. -/
def exitcodeOf (fails : String → Bool) : List Ev → Nat → Nat
  | [], code => code
  | .start _ :: rest, code => exitcodeOf fails rest code
  | .finish s :: rest, code => exitcodeOf fails rest (if fails s then 1 else code)

/-- Pick the first node of `remaining` whose predecessors are all in `done`
(Kahn step).  Modelled from the spec: `sorter.prepare()` must detect a
dependency cycle before any task body runs. -/
def pickReady (deps : Deps) (done : List String) (remaining : List String) :
    Option String :=
  remaining.find? (fun k => (predsOf deps k).all done.contains)

/-- Kahn elimination: repeatedly remove a ready node; `some order` when every
node was eliminated (the graph is acyclic), `none` otherwise. -/
def topoGo (deps : Deps) : Nat → List String → List String → Option (List String)
  | 0, remaining, _ => if remaining.isEmpty then some [] else none
  | fuel + 1, remaining, done =>
    match pickReady deps done remaining with
    | none => if remaining.isEmpty then some [] else none
    | some k => (topoGo deps fuel (remaining.erase k) (k :: done)).map (fun l => k :: l)

/-- `sorter.prepare()`, modelled from the spec: `some` topological order on
an acyclic graph, `none` (the fatal `CycleError`) otherwise. -/
def prepare (deps : Deps) : Option (List String) :=
  topoGo deps deps.length (deps.map Prod.fst) []

/-! ## The removal planner (`Modprobe.solve_modules_remove`)

`ModuleListM` is the `module.list` RPC response (an external collaborator):
the loaded module names and the service→module map. -/
structure ModuleListM where
  loaded_modules : List String
  servicemap : List (String × String)
deriving Repr

/-- `ModuleList.lookup`: `self.servicemap.get(name, None)`. -/
def ModuleListM.lookup (m : ModuleListM) (name : String) : Option String :=
  (m.servicemap.find? (fun p => p.1 = name)).map Prod.snd

/-- Python truthiness of an `Optional[str]` (`None` and `""` are falsy). -/
def isTruthy : Option String → Bool
  | none => false
  | some s => !(s = "")

/-- `Modprobe.has_task`. -/
def TaskDB.has_task (db : TaskDB) (name : String) : Bool :=
  match db.get name with
  | .ok _ => true
  | .error _ => false

/-- Reverse-dependency map: keyed by `mlist.lookup(mod)` (which may be
`None`), values are Python sets kept as insertion-ordered duplicate-free
lists. -/
abbrev RDeps := List (Option String × List String)

def rdLookup (r : RDeps) (k : Option String) : List String :=
  ((r.find? (fun p => p.1 = k)).map Prod.snd).getD []

def rdSet (r : RDeps) (k : Option String) (l : List String) : RDeps :=
  r.map (fun p => if p.1 = k then (p.1, l) else p)

/-- `rdeps[k].add(v)` on the `defaultdict(set)`. -/
def rdepsAdd (r : RDeps) (k : Option String) (v : String) : RDeps :=
  if r.any (fun p => p.1 = k) then
    r.map (fun p => if p.1 = k then (p.1, insertName p.2 v) else p)
  else r ++ [(k, [v])]

/-- `for name, deplist in deps.items(): for mod in deplist:
rdeps[mlist.lookup(mod)].add(name)`. -/
def buildRdeps (mlist : ModuleListM) (deps : Deps) : RDeps :=
  deps.foldl (fun acc p =>
    p.2.foldl (fun acc2 mod => rdepsAdd acc2 (mlist.lookup mod) p.1) acc) []

/-- `dep_set.discard(name)`: a `None` name is never in a set of strings. -/
def rdDiscard (l : List String) : Option String → List String
  | none => l
  | some s => l.erase s

/-- The `for modname, dep_set in rdeps_copy.items()` loop of `remove_dep`:
iterates the key snapshot while the value sets evolve in place; `recurse` is
the recursive `remove_dep` call made for a key whose set was emptied. -/
def removeDepGo (mlist : ModuleListM)
    (recurse : RDeps → Option String → Option (RDeps × List String)) :
    List (Option String) → RDeps → Option String → Option (RDeps × List String)
  | [], r, _ => some (r, [])
  | modname :: rest, r, name =>
    let ds := rdLookup r modname
    if ds.isEmpty then removeDepGo mlist recurse rest r name
    else
      let ds2 := rdDiscard ds name
      let r2 := rdSet r modname ds2
      if ds2.isEmpty then
        match recurse r2 modname with
        | none => none
        | some (r3, app) =>
          let app2 := app ++ (match modname with
            | some s => if mlist.loaded_modules.contains s then [s] else []
            | none => [])
          match removeDepGo mlist recurse rest r3 name with
          | none => none
          | some (r4, app3) => some (r4, app2 ++ app3)
      else removeDepGo mlist recurse rest r2 name

/-- `remove_dep` (local function of `solve_modules_remove`): discard `name`
from every non-empty reverse-dependency set; a set emptied by the discard
recursively removes its own key, and that key — when it is a loaded module —
is appended to the removal list (the second component collects the appends
in order).  The Python recursion has no depth guard, so this is
fuel-indexed. -/
def remove_dep (mlist : ModuleListM) :
    Nat → RDeps → Option String → Option (RDeps × List String)
  | 0, _, _ => none
  | fuel + 1, r, name =>
    removeDepGo mlist (remove_dep mlist fuel) (r.map Prod.fst) r name

/-- The `for name in modules` driver loop — the list grows while it is being
iterated (appends from `remove_dep` extend the iteration), so it is indexed
by position with its own fuel. -/
def removeLoop (mlist : ModuleListM) (rdFuel : Nat) :
    Nat → List String → Nat → RDeps → Option (RDeps × List String)
  | 0, modules, i, r => if modules.length ≤ i then some (r, modules) else none
  | fuel + 1, modules, i, r =>
    match modules.get? i with
    | none => some (r, modules)
    | some name =>
      match remove_dep mlist rdFuel r (mlist.lookup name) with
      | none => none
      | some (r2, app) => removeLoop mlist rdFuel fuel (modules ++ app) (i + 1) r2

/-- The front of `solve_modules_remove`, up to and including the transitive
closure: validate the request (empty means all loaded configured modules),
build `deps` over the loaded modules and invert it into `rdeps`, deep-copy,
and run `remove_dep` for every (growing) entry of the removal list.  Returns
the closure state: the mutated copy and the final removal list, along with
the pristine `rdeps` and the module list actually used. -/
def removalClosure (db : TaskDB) (mlist : ModuleListM) (modules0 : List String)
    (fuel : Nat) : Option (Except String (RDeps × List String × RDeps)) :=
  let all_modules := mlist.loaded_modules.filter db.has_task
  let checked : Except String (List String) :=
    if modules0.isEmpty then .ok all_modules
    else
      modules0.foldlM (fun acc m =>
        if isTruthy (mlist.lookup m) then .ok acc
        else .error ("module " ++ m ++ " is not loaded")) modules0
  match checked with
  | .error e => some (.error e)
  | .ok modules1 =>
    match get_deps db all_modules with
    | .error e => some (.error e)
    | .ok deps =>
      let rdeps := buildRdeps mlist deps
      match removeLoop mlist fuel fuel modules1 0 rdeps with
      | none => none
      | some (rdCopy, modulesF) => some (.ok (rdCopy, modulesF, rdeps))

/-- `Modprobe.solve_modules_remove`: after the closure, any entry of the
removal list that still has reverse dependents is the `InUse` hard error;
otherwise the removal list is resolved to module names and the inverted
graph restricted to them is returned. -/
def solve_modules_remove (db : TaskDB) (mlist : ModuleListM)
    (modules0 : List String) (fuel : Nat) :
    Option (Except String (List String × List (String × List String))) :=
  match removalClosure db mlist modules0 fuel with
  | none => none
  | some (.error e) => some (.error e)
  | some (.ok (rdCopy, modulesF, rdeps)) =>
    match modulesF.find? (fun name => !(rdLookup rdCopy (some name)).isEmpty) with
    | some name =>
      some (.error (name ++ " still in use by "
        ++ String.intercalate ", " (rdLookup rdCopy (some name))))
    | none =>
      let tasks := modulesF.foldl (fun acc service =>
        match mlist.lookup service with
        | some name => insertName acc name
        | none => acc) []
      some (.ok (tasks,
        tasks.map (fun name =>
          (name, (rdLookup rdeps (some name)).filter (fun x => tasks.contains x)))))

/-! ## Helper lemmas -/

theorem findIndex_some_get {p : α → Bool} :
    ∀ {l : List α} {k : Nat}, findIndex p l = some k →
      ∃ a, l.get? k = some a ∧ p a = true := by
  intro l
  induction l with
  | nil => intro k h; simp [findIndex] at h
  | cons x xs ih =>
    intro k h
    by_cases hp : p x
    · simp [findIndex, hp] at h
      exact h ▸ ⟨x, rfl, hp⟩
    · simp [findIndex, hp] at h
      obtain ⟨k2, hk2, rfl⟩ := h
      obtain ⟨a, ha, hpa⟩ := ih hk2
      exact ⟨a, ha, hpa⟩

theorem findIndex_eq_none {p : α → Bool} :
    ∀ {l : List α}, (∀ a ∈ l, p a = false) → findIndex p l = none := by
  intro l
  induction l with
  | nil => intro _; rfl
  | cons x xs ih =>
    intro h
    simp [findIndex, h x (List.mem_cons_self x xs), ih (fun a ha => h a (List.mem_cons_of_mem x ha))]

theorem ids_ne_nil_key {db : TaskDB} {s : String} (h : db.ids s ≠ []) :
    ∃ q ∈ db.index, q.1 = s ∧ q.2 = db.ids s := by
  unfold TaskDB.ids at h ⊢
  cases hf : db.index.find? (fun p => p.1 = s) with
  | none => simp [hf] at h
  | some q =>
    have hq : q ∈ db.index := List.mem_of_find?_eq_some hf
    have hq1 := List.find?_some hf
    simp at hq1
    exact ⟨q, hq, hq1, by simp [hf]⟩

theorem find?_indexSet {s : String} {l : List Nat} :
    ∀ {ix : List (String × List Nat)}, (∃ q ∈ ix, q.1 = s) →
      (indexSet ix s l).find? (fun p => p.1 = s) = some (s, l) := by
  intro ix
  induction ix with
  | nil => rintro ⟨q, hq, _⟩; simp at hq
  | cons x xs ih =>
    rintro ⟨q, hq, hqs⟩
    by_cases hx : x.1 = s
    · simp [indexSet, List.find?, hx]
    · rcases List.mem_cons.mp hq with rfl | hq2
      · exact absurd hqs hx
      · have := ih ⟨q, hq2, hqs⟩
        simpa [indexSet, List.find?, hx] using this

theorem markDisabled_get? :
    ∀ (l : List Task) (j : Nat) (ids : List Nat) (i : Nat),
      (markDisabled l j ids).get? i
        = (l.get? i).map
            (fun t => if ids.contains (j + i) then { t with disabled := true } else t) := by
  intro l
  induction l with
  | nil => intro j ids i; simp [markDisabled]
  | cons t ts ih =>
    intro j ids i
    cases i with
    | zero => simp [markDisabled]
    | succ i2 =>
      simp only [markDisabled, List.get?]
      rw [ih (j + 1) ids i2]
      have : j + 1 + i2 = j + (i2 + 1) := by omega
      rw [this]

/-! ## Claim C6: TaskDB alternatives -/

/-- **C6.** For every TaskDB state and service: (1) whenever
`set_alternative(service, X)` succeeds, a following `get(service)` returns
an entry named `X`; (2) when no provider under `service` is named `X`,
`set_alternative` fails with the NotFound error; (3) `set_alternative` with
the null sentinel disables the service instead; (4) after
`disable(service)`, every provider registered under `service` is
disabled. -/
theorem set_alternative_spec (db : TaskDB) (service X : String) :
    (∀ db2, db.set_alternative service (some X) = .ok db2 →
      ∃ t, db2.get service = .ok t ∧ t.name = X)
    ∧ ((∀ i ∈ db.ids service, ∀ t, db.store.get? i = some t → t.name ≠ X) →
      db.set_alternative service (some X)
        = .error ("no module " ++ X ++ " provides " ++ service))
    ∧ db.set_alternative service none = .ok (db.disable service)
    ∧ (∀ i ∈ (db.disable service).ids service, ∀ t,
        (db.disable service).store.get? i = some t → t.disabled = true) := by
  refine ⟨?_, ?_, rfl, ?_⟩
  · intro db2 h
    unfold TaskDB.set_alternative at h
    cases hfi : findIndex (fun i => (db.store.get? i).map Task.name = some X) (db.ids service) with
    | none => simp only [hfi] at h; exact Except.noConfusion h
    | some k =>
      simp only [hfi] at h
      obtain ⟨i, hget, hpred⟩ := findIndex_some_get hfi
      have hpred2 : (db.store.get? i).map Task.name = some X := of_decide_eq_true hpred
      obtain ⟨t, ht, htn⟩ := Option.map_eq_some'.mp hpred2
      have hids : db.ids service ≠ [] := by
        intro hnil; rw [hnil] at hget; simp at hget
      have hkey := ids_ne_nil_key hids
      have hdb2 : db2 = ⟨db.store,
          indexSet db.index service
            ((db.ids service).eraseIdx k ++ [(db.ids service).getD k 0])⟩ := by
        exact (Except.ok.inj h).symm
      have hgetd : (db.ids service).getD k 0 = i := by
        simp [List.getD_eq_getElem?_getD, ← List.get?_eq_getElem?, hget]
      have hids2 : db2.ids service
          = (db.ids service).eraseIdx k ++ [(db.ids service).getD k 0] := by
        rw [hdb2]
        unfold TaskDB.ids
        rw [find?_indexSet ⟨_, hkey.choose_spec.1, hkey.choose_spec.2.1⟩]
        rfl
      refine ⟨t, ?_, htn⟩
      have hstore : db2.store = db.store := by rw [hdb2]
      unfold TaskDB.get
      rw [hids2, List.getLast?_concat, hgetd]
      simp only [hstore, ht]
  · intro hnone
    have hfe : findIndex (fun i =>
        (db.store.get? i).map Task.name = some X) (db.ids service) = none := by
      apply findIndex_eq_none
      intro i hi
      apply decide_eq_false
      intro hmap
      obtain ⟨t, ht, htn⟩ := Option.map_eq_some'.mp hmap
      exact hnone i hi t ht htn
    unfold TaskDB.set_alternative
    simp only [hfe]
  · intro i hi t ht
    have hids : (db.disable service).ids service = db.ids service := rfl
    rw [hids] at hi
    unfold TaskDB.disable at ht
    rw [markDisabled_get? db.store 0 (db.ids service) i] at ht
    cases hsrc : db.store.get? i with
    | none => rw [hsrc] at ht; simp at ht
    | some t0 =>
      rw [hsrc] at ht
      have h0 : (0 : Nat) + i = i := Nat.zero_add i
      rw [h0] at ht
      have hc : (db.ids service).contains i = true := by
        show (db.ids service).elem i = true
        exact List.elem_iff.mpr hi
      rw [hc] at ht
      simp at ht
      rw [← ht]

/-- Witness for C6 at the spec's S3 scenario: service `store` provided by
`mem` then `disk`. -/
theorem set_alternative_spec_witness :
    ∃ db2, (((TaskDB.empty.add { Task.mk0 "mem" with provides := ["store"] }).add
        { Task.mk0 "disk" with provides := ["store"] }).set_alternative "store"
          (some "mem") = .ok db2)
      ∧ ∃ t, db2.get "store" = .ok t ∧ t.name = "mem" := by
  have h := (set_alternative_spec
    ((TaskDB.empty.add { Task.mk0 "mem" with provides := ["store"] }).add
      { Task.mk0 "disk" with provides := ["store"] }) "store" "mem").1
  refine ⟨_, rfl, h _ rfl⟩

/-! ## mapE / filterE lemmas -/

theorem mapE_ok_forall {α β} {f : α → Except String β} :
    ∀ {l : List α} {r : List β}, mapE f l = .ok r → ∀ x ∈ l, ∃ y, f x = .ok y := by
  intro l
  induction l with
  | nil => intro r _ x hx; simp at hx
  | cons a as ih =>
    intro r h x hx
    unfold mapE at h
    cases hfa : f a with
    | error e => rw [hfa] at h; exact Except.noConfusion h
    | ok y =>
      rw [hfa] at h
      cases hrest : mapE f as with
      | error e => rw [hrest] at h; exact Except.noConfusion h
      | ok ys =>
        rw [hrest] at h
        rcases List.mem_cons.mp hx with rfl | hx2
        · exact ⟨y, hfa⟩
        · exact ih hrest x hx2

theorem mapE_ok_of_forall {α β} {f : α → Except String β} :
    ∀ {l : List α}, (∀ x ∈ l, ∃ y, f x = .ok y) → ∃ r, mapE f l = .ok r := by
  intro l
  induction l with
  | nil => intro _; exact ⟨[], rfl⟩
  | cons a as ih =>
    intro h
    obtain ⟨y, hy⟩ := h a (List.mem_cons_self a as)
    obtain ⟨r, hr⟩ := ih (fun x hx => h x (List.mem_cons_of_mem a hx))
    exact ⟨y :: r, by unfold mapE; rw [hy, hr]⟩

theorem mapE_ok_mem {α β} {f : α → Except String β} :
    ∀ {l : List α} {r : List β}, mapE f l = .ok r →
      ∀ y, y ∈ r ↔ ∃ x ∈ l, f x = .ok y := by
  intro l
  induction l with
  | nil =>
    intro r h y
    unfold mapE at h
    cases h
    simp
  | cons a as ih =>
    intro r h y
    unfold mapE at h
    cases hfa : f a with
    | error e => rw [hfa] at h; exact Except.noConfusion h
    | ok y0 =>
      rw [hfa] at h
      cases hrest : mapE f as with
      | error e => rw [hrest] at h; exact Except.noConfusion h
      | ok ys =>
        rw [hrest] at h
        cases h
        constructor
        · intro hy
          rcases List.mem_cons.mp hy with rfl | hy2
          · exact ⟨a, List.mem_cons_self a as, hfa⟩
          · obtain ⟨x, hx, hfx⟩ := (ih hrest y).mp hy2
            exact ⟨x, List.mem_cons_of_mem a hx, hfx⟩
        · rintro ⟨x, hx, hfx⟩
          rcases List.mem_cons.mp hx with rfl | hx2
          · rw [hfa] at hfx
            cases hfx
            exact List.mem_cons_self _ _
          · exact List.mem_cons_of_mem _ ((ih hrest y).mpr ⟨x, hx2, hfx⟩)

theorem mapE_error_of_mem {α β} {f : α → Except String β} :
    ∀ {l : List α} {x : α}, x ∈ l → (∃ e, f x = .error e) →
      ∃ e2, mapE f l = .error e2 := by
  intro l
  induction l with
  | nil => intro x hx; simp at hx
  | cons a as ih =>
    rintro x hx ⟨e, he⟩
    unfold mapE
    cases hfa : f a with
    | error e2 => exact ⟨e2, rfl⟩
    | ok y =>
      rcases List.mem_cons.mp hx with rfl | hx2
      · rw [hfa] at he; exact Except.noConfusion he
      · obtain ⟨e2, he2⟩ := ih hx2 ⟨e, he⟩
        rw [he2]
        exact ⟨e2, rfl⟩

theorem filterE_ok_sublist {α} {p : α → Except String Bool} :
    ∀ {l r : List α}, filterE p l = .ok r → r.Sublist l := by
  intro l
  induction l with
  | nil => intro r h; cases h; exact List.Sublist.refl []
  | cons a as ih =>
    intro r h
    unfold filterE at h
    cases hpa : p a with
    | error e => rw [hpa] at h; exact Except.noConfusion h
    | ok b =>
      rw [hpa] at h
      cases hrest : filterE p as with
      | error e => rw [hrest] at h; exact Except.noConfusion h
      | ok r2 =>
        rw [hrest] at h
        cases h
        cases b with
        | true => exact List.Sublist.cons₂ a (ih hrest)
        | false => exact List.Sublist.cons a (ih hrest)

/-! ## Claim C10: `any_provides` resolves before testing -/

/-- **C10.** `TaskDB.any_provides(tasks, name)` resolves every element of
`tasks` before testing anything: it raises (rather than returning `False`)
when any element is dangling; and it returns `False` exactly when every
element resolves and no resolved, non-disabled task has `name` equal to its
name or listed in its `provides`. -/
theorem any_provides_spec (db : TaskDB) (tasks : List String) (name : String) :
    ((∃ x ∈ tasks, ∃ e, db.get x = .error e) →
      ∃ e2, db.any_provides tasks name = .error e2)
    ∧ (db.any_provides tasks name = .ok false ↔
        (∀ x ∈ tasks, ∃ t, db.get x = .ok t)
        ∧ (∀ x ∈ tasks, ∀ t, db.get x = .ok t →
            t.disabled = true ∨ (name ≠ t.name ∧ ¬ name ∈ t.provides))) := by
  constructor
  · rintro ⟨x, hx, e, he⟩
    obtain ⟨e2, he2⟩ := mapE_error_of_mem hx ⟨e, he⟩
    exact ⟨e2, by unfold TaskDB.any_provides; rw [he2]⟩
  · constructor
    · intro h
      unfold TaskDB.any_provides at h
      cases hm : mapE db.get tasks with
      | error e => rw [hm] at h; exact Except.noConfusion h
      | ok resolved =>
        rw [hm] at h
        have hany := Except.ok.inj h
        refine ⟨mapE_ok_forall hm, ?_⟩
        intro x hx t ht
        have htr : t ∈ resolved := (mapE_ok_mem hm t).mpr ⟨x, hx, ht⟩
        have hpred := List.any_eq_false.mp hany t htr
        by_cases hd : t.disabled
        · exact Or.inl hd
        · right
          simp [hd] at hpred
          exact hpred
    · rintro ⟨hall, hnone⟩
      obtain ⟨resolved, hm⟩ := mapE_ok_of_forall hall
      unfold TaskDB.any_provides
      rw [hm]
      have : resolved.any
          (fun t => !t.disabled && (name = t.name || t.provides.contains name)) = false := by
        apply List.any_eq_false.mpr
        intro t htr
        obtain ⟨x, hx, hfx⟩ := (mapE_ok_mem hm t).mp htr
        rcases hnone x hx t hfx with hd | ⟨hn, hp⟩
        · simp [hd]
        · simp [hn, hp]
      simp only [this]

/-! ## Claim C3: needs pruning is a single pass, not a fixed point -/

theorem needsLoop_ok_sublist {db : TaskDB} {name : String} :
    ∀ {needs cur cur2 : List String}, needsLoop db name needs cur = .ok cur2 →
      cur2.Sublist cur := by
  intro needs
  induction needs with
  | nil => intro cur cur2 h; cases h; exact List.Sublist.refl _
  | cons need rest ih =>
    intro cur cur2 h
    unfold needsLoop at h
    cases hap : db.any_provides cur need with
    | error e => rw [hap] at h; exact Except.noConfusion h
    | ok b =>
      rw [hap] at h
      simp only [] at h
      cases b with
      | true => simpa using ih h
      | false =>
        simp only [if_neg (by simp : ¬False), Bool.false_eq_true, if_false] at h
        by_cases hc : cur.contains name = true
        · rw [if_pos hc] at h
          exact (ih h).trans (List.erase_sublist name cur)
        · rw [if_neg hc] at h
          exact ih h

theorem processNeedsGo_ok_sublist {db : TaskDB} :
    ∀ {snapshot cur final : List String}, processNeedsGo db snapshot cur = .ok final →
      final.Sublist cur := by
  intro snapshot
  induction snapshot with
  | nil => intro cur final h; cases h; exact List.Sublist.refl _
  | cons name rest ih =>
    intro cur final h
    unfold processNeedsGo at h
    cases hg : db.get name with
    | error e => rw [hg] at h; exact Except.noConfusion h
    | ok task =>
      rw [hg] at h
      simp only [] at h
      cases hnl : needsLoop db name task.needs cur with
      | error e => rw [hnl] at h; exact Except.noConfusion h
      | ok cur2 =>
        rw [hnl] at h
        simp only [] at h
        exact (ih h).trans (needsLoop_ok_sublist hnl)

/-- Dichotomy for one task's needs check: either nothing was removed and
every need was provided by the (unchanged) current list, or the task's name
is gone from the resulting list. -/
theorem needsLoop_dichotomy {db : TaskDB} {name : String} :
    ∀ {needs cur cur2 : List String}, cur.Nodup →
      needsLoop db name needs cur = .ok cur2 →
      (cur2 = cur ∧ ∀ need ∈ needs, db.any_provides cur need = .ok true)
        ∨ ¬ name ∈ cur2 := by
  intro needs
  induction needs with
  | nil =>
    intro cur cur2 _ h
    cases h
    exact Or.inl ⟨rfl, by simp⟩
  | cons need rest ih =>
    intro cur cur2 hnd h
    unfold needsLoop at h
    cases hap : db.any_provides cur need with
    | error e => rw [hap] at h; exact Except.noConfusion h
    | ok b =>
      rw [hap] at h
      simp only [] at h
      cases b with
      | true =>
        simp only [if_pos rfl] at h
        rcases ih hnd h with ⟨rfl, hrest⟩ | hgone
        · refine Or.inl ⟨rfl, ?_⟩
          intro n hn
          rcases List.mem_cons.mp hn with rfl | hn2
          · exact hap
          · exact hrest n hn2
        · exact Or.inr hgone
      | false =>
        simp only [Bool.false_eq_true, if_false] at h
        right
        by_cases hc : cur.contains name = true
        · rw [if_pos hc] at h
          intro habs
          have hsub := needsLoop_ok_sublist h
          have : name ∈ cur.erase name := hsub.subset habs
          exact (List.Nodup.not_mem_erase hnd) this
        · rw [if_neg hc] at h
          intro habs
          have hsub := needsLoop_ok_sublist h
          have : name ∈ cur := hsub.subset habs
          exact hc (List.elem_iff.mpr this)

/-- The invariant of the single pass: every survivor that appears in the
remaining snapshot had all its needs satisfied against the list as it stood
at that survivor's check — a set `S` squeezed between the final and the
entry list. -/
theorem processNeedsGo_survivor {db : TaskDB} :
    ∀ {snapshot cur final : List String}, cur.Nodup →
      processNeedsGo db snapshot cur = .ok final →
      ∀ u ∈ final, u ∈ snapshot →
        ∃ tu S, db.get u = .ok tu ∧ final.Sublist S ∧ S.Sublist cur
          ∧ ∀ need ∈ tu.needs, db.any_provides S need = .ok true := by
  intro snapshot
  induction snapshot with
  | nil => intro cur final _ h u hu hus; simp at hus
  | cons name rest ih =>
    intro cur final hnd h u hu hus
    unfold processNeedsGo at h
    cases hg : db.get name with
    | error e => rw [hg] at h; exact Except.noConfusion h
    | ok task =>
      rw [hg] at h
      simp only [] at h
      cases hnl : needsLoop db name task.needs cur with
      | error e => rw [hnl] at h; exact Except.noConfusion h
      | ok cur2 =>
        rw [hnl] at h
        simp only [] at h
        have hnd2 : cur2.Nodup := (needsLoop_ok_sublist hnl).nodup hnd
        by_cases hur : u ∈ rest
        · obtain ⟨tu, S, hgu, hfs, hsc, hneeds⟩ := ih hnd2 h u hu hur
          exact ⟨tu, S, hgu, hfs, hsc.trans (needsLoop_ok_sublist hnl), hneeds⟩
        · have hun : u = name := by
            rcases List.mem_cons.mp hus with rfl | h2
            · rfl
            · exact absurd h2 hur
          subst hun
          rcases needsLoop_dichotomy hnd hnl with ⟨rfl, hall⟩ | hgone
          · exact ⟨task, cur2, hg, processNeedsGo_ok_sublist h, List.Sublist.refl _, hall⟩
          · have : u ∈ cur2 := (processNeedsGo_ok_sublist h).subset hu
            exact absurd this hgone

/-- **C3 (amended).** `process_needs` is a single in-order pass over a
snapshot of the initial list: a task's needs are checked against the list as
pruned so far, so for every survivor there is an intermediate set `S`
(between the final and the initial list) against which all its needs were
provided.  The final set itself need not satisfy the survivors' needs. -/
theorem process_needs_single_pass (db : TaskDB) (tasks final : List String)
    (hnd : tasks.Nodup) (h : process_needs db tasks = .ok final) :
    final.Sublist tasks
    ∧ ∀ u ∈ final, ∃ tu S, db.get u = .ok tu ∧ final.Sublist S ∧ S.Sublist tasks
        ∧ ∀ need ∈ tu.needs, db.any_provides S need = .ok true := by
  refine ⟨processNeedsGo_ok_sublist h, ?_⟩
  intro u hu
  exact processNeedsGo_survivor hnd h u hu ((processNeedsGo_ok_sublist h).subset hu)

/-- **C3 (counterexample).** With `a.needs = ["b"]` and `b.needs = ["c"]`
(no task provides `c`), the single pass keeps `a` while removing `b`: the
surviving set `["a"]` leaves `a`'s need `b` unprovided, so pruning does not
reach a fixed point evaluated against the final set. -/
theorem process_needs_not_fixed_point :
    process_needs
        ((TaskDB.empty.add { Task.mk0 "a" with needs := ["b"] }).add
          { Task.mk0 "b" with needs := ["c"] }) ["a", "b"] = .ok ["a"]
    ∧ ((TaskDB.empty.add { Task.mk0 "a" with needs := ["b"] }).add
          { Task.mk0 "b" with needs := ["c"] }).get "a"
        = .ok { Task.mk0 "a" with needs := ["b"] }
    ∧ ((TaskDB.empty.add { Task.mk0 "a" with needs := ["b"] }).add
          { Task.mk0 "b" with needs := ["c"] }).any_provides ["a"] "b" = .ok false := by
  exact ⟨rfl, rfl, rfl⟩

/-- Witness for the amended C3 at a concrete pass: the pass on the
counterexample database prunes `["a", "b"]` to `["a"]`. -/
theorem process_needs_single_pass_witness :
    process_needs
        ((TaskDB.empty.add { Task.mk0 "a" with needs := ["b"] }).add
          { Task.mk0 "b" with needs := ["c"] }) ["a", "b"] = .ok ["a"]
    ∧ List.Sublist ["a"] ["a", "b"] :=
  ⟨rfl, (process_needs_single_pass
    ((TaskDB.empty.add { Task.mk0 "a" with needs := ["b"] }).add
      { Task.mk0 "b" with needs := ["c"] }) ["a", "b"] ["a"]
    (by decide) rfl).1⟩

/-! ## Claim C9: reading `active_tasks` permanently prunes the stored list -/

/-- **C9.** Reading `Modprobe.active_tasks` runs `process_needs` on the
stored `_active_tasks` list in place and keeps the pruned list as the new
stored state (second component).  Consequently a name removed by one read is
absent from the stored list and from the view of every later read, whatever
database (e.g. with a provider for the need registered afterwards) and
context the later read uses. -/
theorem active_tasks_removal_sticky (db1 db2 : TaskDB) (ctx1 ctx2 : Context)
    (active v1 a1 : List String) (t : String)
    (h1 : active_tasks db1 ctx1 active = .ok (v1, a1)) :
    (process_needs db1 active = .ok a1 ∧ a1.Sublist active ∧ v1.Sublist a1)
    ∧ (¬ t ∈ a1 → ∀ v2 a2, active_tasks db2 ctx2 a1 = .ok (v2, a2) →
        ¬ t ∈ a2 ∧ ¬ t ∈ v2) := by
  have hsplit : ∀ (db : TaskDB) (ctx : Context) (act v a : List String),
      active_tasks db ctx act = .ok (v, a) →
      process_needs db act = .ok a ∧ a.Sublist act ∧ v.Sublist a := by
    intro db ctx act v a h
    unfold active_tasks at h
    cases hp : process_needs db act with
    | error e => rw [hp] at h; exact Except.noConfusion h
    | ok pruned =>
      rw [hp] at h
      simp only [] at h
      cases hf : filterE (fun name => (db.get name).map (fun t => t.enabled ctx)) pruned with
      | error e => rw [hf] at h; exact Except.noConfusion h
      | ok view =>
        rw [hf] at h
        have hvp := Except.ok.inj h
        have hv : view = v := congrArg Prod.fst hvp
        have hpr : pruned = a := congrArg Prod.snd hvp
        subst hv
        subst hpr
        exact ⟨rfl, processNeedsGo_ok_sublist hp, filterE_ok_sublist hf⟩
  refine ⟨hsplit db1 ctx1 active v1 a1 h1, ?_⟩
  intro ht v2 a2 h2
  obtain ⟨hp2, hsub2, hview2⟩ := hsplit db2 ctx2 a1 v2 a2 h2
  have ha2 : ¬ t ∈ a2 := fun habs => ht (hsub2.subset habs)
  exact ⟨ha2, fun habs => ha2 (hview2.subset habs)⟩

/-- Witness for C9: on the counterexample database, one read prunes the
stored list to `["a"]`; rereading against a database where `c` is now
provided still never restores `b`. -/
theorem active_tasks_removal_sticky_witness :
    ¬ "b" ∈ ([] : List String) ∧ ¬ "b" ∈ ([] : List String) := by
  have h := active_tasks_removal_sticky
    ((TaskDB.empty.add { Task.mk0 "a" with needs := ["b"] }).add
      { Task.mk0 "b" with needs := ["c"] })
    (((TaskDB.empty.add { Task.mk0 "a" with needs := ["b"] }).add
      { Task.mk0 "b" with needs := ["c"] }).add (Task.mk0 "c"))
    ⟨0, fun _ => true, fun _ => true⟩ ⟨0, fun _ => true, fun _ => true⟩
    ["a", "b"] ["a"] ["a"] "b" rfl
  exact h.2 (by decide) [] [] (by rfl)

/-! ## Claim C8: solver termination

The recursion of `solve_tasks_recursive` is guarded only by the visited set,
and the visited set records *canonical* names (`visited.add(task.name)`)
while the snapshot filter checks the *raw* reference
(`x not in visited`).  A `requires` cycle spelled with canonical names
terminates; one spelled through a `provides` alias never adds the alias to
the visited set and recurses forever. -/

/-- The database of the diverging input: one task `a` that provides `p` and
requires itself through the alias `p`. -/
def aliasCycleDB : TaskDB :=
  TaskDB.empty.add { Task.mk0 "a" with provides := ["p"], requires := ["p"] }

/-- A context in which every task is enabled. -/
def ctxAll : Context := ⟨0, fun _ => true, fun _ => true⟩

theorem aliasCycle_loops :
    ∀ n, solve_tasks_recursive aliasCycleDB ctxAll n ["p"] ⟨["a"], ["a"], []⟩ = none := by
  intro n
  induction n with
  | zero => rw [solve_tasks_recursive.eq_def]
  | succ m ih =>
    rw [solve_tasks_recursive.eq_def]
    show solveLoop aliasCycleDB ctxAll m ["p"] ⟨["a"], ["a"], []⟩ = none
    rw [solveLoop.eq_def]
    show (match solve_tasks_recursive aliasCycleDB ctxAll m ["p"] ⟨["a"], ["a"], []⟩ with
      | none => none
      | some (Except.error e) => some (Except.error e)
      | some (Except.ok st2) => solveLoop aliasCycleDB ctxAll m [] st2) = none
    rw [ih]

/-- **C8 (counterexample).** On a `requires` cycle through a provides alias
(`a` provides `p` and requires `p`), the solver recurses forever: no
recursion depth returns a value.  (In the Python process this is an
unbounded recursion, aborted only by the interpreter's `RecursionError`.) -/
theorem solver_alias_cycle_diverges :
    ¬ ∃ fuel r, solve aliasCycleDB ctxAll fuel ["a"] = some r := by
  rintro ⟨fuel, r, h⟩
  have hrec : ∀ n, solve_tasks_recursive aliasCycleDB ctxAll n ["a"] ⟨[], [], []⟩ = none := by
    intro n
    cases n with
    | zero => rw [solve_tasks_recursive.eq_def]
    | succ m =>
      rw [solve_tasks_recursive.eq_def]
      show solveLoop aliasCycleDB ctxAll m ["a"] ⟨[], [], []⟩ = none
      rw [solveLoop.eq_def]
      show (match solve_tasks_recursive aliasCycleDB ctxAll m ["p"] ⟨["a"], ["a"], []⟩ with
        | none => none
        | some (Except.error e) => some (Except.error e)
        | some (Except.ok st2) => solveLoop aliasCycleDB ctxAll m [] st2) = none
      rw [aliasCycle_loops m]
  unfold solve at h
  rw [hrec fuel] at h
  exact Option.noConfusion h

/-- Number of index keys not yet visited: the solver's termination measure. -/
def unvisitedCount (db : TaskDB) (vis : List String) : Nat :=
  ((db.index.map Prod.fst).filter (fun k => !vis.contains k)).length

theorem mem_insertName {l : List String} {x y : String} :
    y ∈ insertName l x ↔ y ∈ l ∨ y = x := by
  unfold insertName
  by_cases h : l.contains x = true
  · rw [if_pos h]
    constructor
    · exact Or.inl
    · rintro (hy | rfl)
      · exact hy
      · exact List.elem_iff.mp h
  · rw [if_neg h]
    simp

theorem insertName_subset {l : List String} {x : String} : l ⊆ insertName l x := by
  intro y hy
  exact mem_insertName.mpr (Or.inl hy)

theorem filter_sublist_imp {α} {p q : α → Bool} (h : ∀ a, p a = true → q a = true) :
    ∀ l : List α, (l.filter p).Sublist (l.filter q) := by
  intro l
  induction l with
  | nil => exact List.Sublist.refl _
  | cons a l2 ih =>
    by_cases hp : p a = true
    · rw [List.filter_cons_of_pos hp, List.filter_cons_of_pos (h a hp)]
      exact List.Sublist.cons₂ a ih
    · rw [List.filter_cons_of_neg (by simpa using hp)]
      by_cases hq : q a = true
      · rw [List.filter_cons_of_pos hq]
        exact List.Sublist.cons a ih
      · rw [List.filter_cons_of_neg (by simpa using hq)]
        exact ih

theorem unvisitedCount_le_of_subset {db : TaskDB} {v1 v2 : List String}
    (h : v1 ⊆ v2) : unvisitedCount db v2 ≤ unvisitedCount db v1 := by
  apply List.Sublist.length_le
  apply filter_sublist_imp
  intro a ha
  simp at ha ⊢
  intro habs
  exact ha (h habs)

theorem get_ok_key {db : TaskDB} {x : String} {u : Task}
    (h : db.get x = .ok u) : x ∈ db.index.map Prod.fst := by
  unfold TaskDB.get at h
  cases hl : (db.ids x).getLast? with
  | none => rw [hl] at h; exact Except.noConfusion h
  | some i =>
    have hne : db.ids x ≠ [] := by
      intro habs; rw [habs] at hl; exact Option.noConfusion hl
    obtain ⟨q, hq, hq1, _⟩ := ids_ne_nil_key hne
    exact hq1 ▸ List.mem_map_of_mem Prod.fst hq

theorem unvisitedCount_insert_fresh {db : TaskDB} {vis : List String} {x : String}
    (hkey : x ∈ db.index.map Prod.fst) (hx : ¬ x ∈ vis) :
    unvisitedCount db (insertName vis x) + 1 ≤ unvisitedCount db vis := by
  have hsub : ((db.index.map Prod.fst).filter
        (fun k => !(insertName vis x).contains k)).Sublist
      ((db.index.map Prod.fst).filter (fun k => !vis.contains k)) := by
    apply filter_sublist_imp
    intro a ha
    simp at ha ⊢
    intro habs
    exact ha (insertName_subset habs)
  have hxin : x ∈ (db.index.map Prod.fst).filter (fun k => !vis.contains k) := by
    apply List.mem_filter.mpr
    refine ⟨hkey, ?_⟩
    simp
    exact hx
  have hxout : ¬ x ∈ (db.index.map Prod.fst).filter
      (fun k => !(insertName vis x).contains k) := by
    intro habs
    have := (List.mem_filter.mp habs).2
    simp at this
    exact this (mem_insertName.mpr (Or.inr rfl))
  have hne : ((db.index.map Prod.fst).filter
        (fun k => !(insertName vis x).contains k))
      ≠ ((db.index.map Prod.fst).filter (fun k => !vis.contains k)) := by
    intro habs
    rw [habs] at hxout
    exact hxout hxin
  have hlt := Nat.lt_of_le_of_ne (hsub.length_le)
    (fun hlen => hne (hsub.eq_of_length hlen))
  exact hlt

/-- Visited-set monotonicity: a successful solver run only grows the visited
set. -/
theorem solver_visited_mono (db : TaskDB) (ctx : Context) :
    ∀ fuel : Nat,
      (∀ p st st', solve_tasks_recursive db ctx fuel p st = some (.ok st') →
        st.visited ⊆ st'.visited)
      ∧ (∀ q st st', solveLoop db ctx fuel q st = some (.ok st') →
        st.visited ⊆ st'.visited) := by
  intro fuel
  induction fuel with
  | zero =>
    constructor
    · intro p st st' h
      rw [solve_tasks_recursive.eq_def] at h
      exact Option.noConfusion h
    · intro q
      induction q with
      | nil =>
        intro st st' h
        rw [solveLoop.eq_def] at h
        simp only [] at h
        cases Except.ok.inj (Option.some.inj h)
        exact fun y hy => hy
      | cons x rest ih =>
        intro st st' h
        rw [solveLoop.eq_def] at h
        simp only [] at h
        cases hg : db.get x with
        | error e =>
          rw [hg] at h
          simp only [] at h
          exact Except.noConfusion (Option.some.inj h)
        | ok u =>
          rw [hg] at h
          simp only [] at h
          by_cases hen : u.enabled ctx = true
          · rw [if_pos hen] at h
            by_cases hreq : u.requires.isEmpty = true
            · rw [if_pos hreq] at h
              exact fun y hy => ih _ _ h (insertName_subset hy)
            · rw [if_neg hreq] at h
              rw [solve_tasks_recursive.eq_def] at h
              simp only [] at h
              exact Option.noConfusion h
          · rw [if_neg hen] at h
            by_cases hreq : u.requires.isEmpty = true
            · rw [if_pos hreq] at h
              exact fun y hy => ih _ _ h (insertName_subset hy)
            · rw [if_neg hreq] at h
              rw [solve_tasks_recursive.eq_def] at h
              simp only [] at h
              exact Option.noConfusion h
  | succ fuel ihf =>
    have hrec : ∀ p st st',
        solve_tasks_recursive db ctx (fuel + 1) p st = some (.ok st') →
          st.visited ⊆ st'.visited := by
      intro p st st' h
      rw [solve_tasks_recursive.eq_def] at h
      exact ihf.2 _ _ _ h
    refine ⟨hrec, ?_⟩
    intro q
    induction q with
    | nil =>
      intro st st' h
      rw [solveLoop.eq_def] at h
      simp only [] at h
      cases Except.ok.inj (Option.some.inj h)
      exact fun y hy => hy
    | cons x rest ih =>
      intro st st' h
      rw [solveLoop.eq_def] at h
      simp only [] at h
      cases hg : db.get x with
      | error e =>
        rw [hg] at h
        simp only [] at h
        exact Except.noConfusion (Option.some.inj h)
      | ok u =>
        rw [hg] at h
        simp only [] at h
        by_cases hen : u.enabled ctx = true
        · rw [if_pos hen] at h
          by_cases hreq : u.requires.isEmpty = true
          · rw [if_pos hreq] at h
            exact fun y hy => ih _ _ h (insertName_subset hy)
          · rw [if_neg hreq] at h
            cases hr : solve_tasks_recursive db ctx (fuel + 1) u.requires
                ⟨insertName st.result u.name, insertName st.visited u.name, st.skipped⟩ with
            | none => rw [hr] at h; exact Option.noConfusion h
            | some r2 =>
              rw [hr] at h
              cases r2 with
              | error e => simp only [] at h; exact Except.noConfusion (Option.some.inj h)
              | ok st2 =>
                simp only [] at h
                intro y hy
                exact ih _ _ h (hrec _ _ _ hr (insertName_subset hy))
        · rw [if_neg hen] at h
          by_cases hreq : u.requires.isEmpty = true
          · rw [if_pos hreq] at h
            exact fun y hy => ih _ _ h (insertName_subset hy)
          · rw [if_neg hreq] at h
            cases hr : solve_tasks_recursive db ctx (fuel + 1) u.requires
                ⟨st.result, insertName st.visited u.name, insertName st.skipped u.name⟩ with
            | none => rw [hr] at h; exact Option.noConfusion h
            | some r2 =>
              rw [hr] at h
              cases r2 with
              | error e => simp only [] at h; exact Except.noConfusion (Option.some.inj h)
              | ok st2 =>
                simp only [] at h
                intro y hy
                exact ih _ _ h (hrec _ _ _ hr (insertName_subset hy))

theorem insertName_eq_of_mem {l : List String} {x : String} (h : x ∈ l) :
    insertName l x = l := by
  unfold insertName
  rw [if_pos (List.elem_iff.mpr h)]

/-- Core termination argument: when every resolvable reference resolves to a
task carrying that very name (no provides aliasing in resolution), recursion
depth `unvisited + 2` always suffices — every fresh visit strictly shrinks
the set of unvisited index keys, and a revisit can only follow a fresh visit
made since the snapshot was filtered. -/
theorem solveRec_total (db : TaskDB) (ctx : Context)
    (HC : ∀ x u, db.get x = .ok u → u.name = x) :
    ∀ m : Nat, ∀ (st : SolveState) (pending : List String) (fuel : Nat),
      unvisitedCount db st.visited ≤ m → m + 2 ≤ fuel →
      ∃ r, solve_tasks_recursive db ctx fuel pending st = some r := by
  intro m
  induction m using Nat.strong_induction_on with
  | _ m IH =>
    have loopTotal : ∀ (q : List String) (st2 : SolveState) (f2 : Nat),
        unvisitedCount db st2.visited ≤ m →
        (∀ y ∈ q, y ∈ st2.visited → unvisitedCount db st2.visited + 1 ≤ m) →
        m + 1 ≤ f2 →
        ∃ r, solveLoop db ctx f2 q st2 = some r := by
      intro q
      induction q with
      | nil =>
        intro st2 f2 _ _ _
        refine ⟨.ok st2, ?_⟩
        rw [solveLoop.eq_def]
      | cons y rest ihq =>
        intro st2 f2 hA hB hf
        cases hg : db.get y with
        | error e =>
          refine ⟨.error e, ?_⟩
          rw [solveLoop.eq_def]
          simp only [hg]
        | ok u =>
          have hname : u.name = y := HC y u hg
          have hkey : y ∈ db.index.map Prod.fst := get_ok_key hg
          have hvis : ∀ st3 : SolveState, st3.visited = insertName st2.visited u.name →
              unvisitedCount db st3.visited ≤ m
                ∧ (unvisitedCount db st3.visited + 1 ≤ m ∨ ¬ y ∈ st2.visited) := by
            intro st3 h3
            by_cases hyv : y ∈ st2.visited
            · have hsame : st3.visited = st2.visited := by
                rw [h3, hname, insertName_eq_of_mem hyv]
              have := hB y (List.mem_cons_self y rest) hyv
              rw [hsame]
              exact ⟨Nat.le_trans (Nat.le_succ _) this, Or.inl this⟩
            · have hfresh : unvisitedCount db st3.visited + 1 ≤ unvisitedCount db st2.visited := by
                rw [h3, hname]
                exact unvisitedCount_insert_fresh hkey hyv
              constructor
              · omega
              · left
                omega
          -- the two possible next states, by enablement
          by_cases hen : u.enabled ctx = true
          · -- enabled
            have hfacts := hvis ⟨insertName st2.result u.name,
              insertName st2.visited u.name, st2.skipped⟩ rfl
            have hcnt2 : unvisitedCount db (insertName st2.visited u.name) + 1 ≤ m ∨
                unvisitedCount db (insertName st2.visited u.name) + 1
                  ≤ unvisitedCount db st2.visited := by
              rcases hfacts.2 with h1 | h2
              · exact Or.inl h1
              · right
                rw [hname]
                exact unvisitedCount_insert_fresh hkey h2
            by_cases hreq : u.requires.isEmpty = true
            · obtain ⟨r, hr⟩ := ihq ⟨insertName st2.result u.name,
                insertName st2.visited u.name, st2.skipped⟩ f2 hfacts.1
                (fun y2 _ hy2v => by
                  rcases hcnt2 with h1 | h2
                  · exact h1
                  · exact Nat.le_trans h2 hA) hf
              refine ⟨r, ?_⟩
              rw [solveLoop.eq_def]
              simp only [hg, if_pos hen, if_pos hreq]
              exact hr
            · -- recurse into requires
              have hm2 : unvisitedCount db (insertName st2.visited u.name) + 1 ≤ m := by
                rcases hcnt2 with h1 | h2
                · exact h1
                · exact Nat.le_trans h2 hA
              obtain ⟨r2, hr2⟩ := IH (unvisitedCount db (insertName st2.visited u.name))
                (by omega) ⟨insertName st2.result u.name,
                  insertName st2.visited u.name, st2.skipped⟩ u.requires f2
                (Nat.le_refl _) (by omega)
              cases r2 with
              | error e =>
                refine ⟨.error e, ?_⟩
                rw [solveLoop.eq_def]
                simp only [hg, if_pos hen, if_neg hreq, hr2]
              | ok st3 =>
                have hmono := (solver_visited_mono db ctx f2).1 _ _ _ hr2
                have hcnt3 : unvisitedCount db st3.visited
                    ≤ unvisitedCount db (insertName st2.visited u.name) :=
                  unvisitedCount_le_of_subset hmono
                obtain ⟨r, hr⟩ := ihq st3 f2 (by omega)
                  (fun y2 _ hy2v => by omega) hf
                refine ⟨r, ?_⟩
                rw [solveLoop.eq_def]
                simp only [hg, if_pos hen, if_neg hreq, hr2]
                exact hr
          · -- not enabled
            have hfacts := hvis ⟨st2.result,
              insertName st2.visited u.name, insertName st2.skipped u.name⟩ rfl
            have hcnt2 : unvisitedCount db (insertName st2.visited u.name) + 1 ≤ m ∨
                unvisitedCount db (insertName st2.visited u.name) + 1
                  ≤ unvisitedCount db st2.visited := by
              rcases hfacts.2 with h1 | h2
              · exact Or.inl h1
              · right
                rw [hname]
                exact unvisitedCount_insert_fresh hkey h2
            by_cases hreq : u.requires.isEmpty = true
            · obtain ⟨r, hr⟩ := ihq ⟨st2.result,
                insertName st2.visited u.name, insertName st2.skipped u.name⟩ f2 hfacts.1
                (fun y2 _ hy2v => by
                  rcases hcnt2 with h1 | h2
                  · exact h1
                  · exact Nat.le_trans h2 hA) hf
              refine ⟨r, ?_⟩
              rw [solveLoop.eq_def]
              simp only [hg, if_neg hen, if_pos hreq]
              exact hr
            · have hm2 : unvisitedCount db (insertName st2.visited u.name) + 1 ≤ m := by
                rcases hcnt2 with h1 | h2
                · exact h1
                · exact Nat.le_trans h2 hA
              obtain ⟨r2, hr2⟩ := IH (unvisitedCount db (insertName st2.visited u.name))
                (by omega) ⟨st2.result,
                  insertName st2.visited u.name, insertName st2.skipped u.name⟩ u.requires f2
                (Nat.le_refl _) (by omega)
              cases r2 with
              | error e =>
                refine ⟨.error e, ?_⟩
                rw [solveLoop.eq_def]
                simp only [hg, if_neg hen, if_neg hreq, hr2]
              | ok st3 =>
                have hmono := (solver_visited_mono db ctx f2).1 _ _ _ hr2
                have hcnt3 : unvisitedCount db st3.visited
                    ≤ unvisitedCount db (insertName st2.visited u.name) :=
                  unvisitedCount_le_of_subset hmono
                obtain ⟨r, hr⟩ := ihq st3 f2 (by omega)
                  (fun y2 _ hy2v => by omega) hf
                refine ⟨r, ?_⟩
                rw [solveLoop.eq_def]
                simp only [hg, if_neg hen, if_neg hreq, hr2]
                exact hr
    intro st pending fuel hm hfuel
    cases fuel with
    | zero => omega
    | succ f =>
      obtain ⟨r, hr⟩ := loopTotal
        (pending.filter (fun x => !st.visited.contains x)) st f hm
        (fun y hy hyv => by
          have := (List.mem_filter.mp hy).2
          simp at this
          exact absurd hyv this) (by omega)
      refine ⟨r, ?_⟩
      rw [solve_tasks_recursive.eq_def]
      exact hr

/-- **C8 (amended).** The solver terminates — with recursion depth bounded by
the number of index keys plus two — whenever every resolvable name resolves
to a task whose canonical name is that very name (references by canonical
name, no provides-alias resolution).  A `requires` cycle reaching a task
through a provides alias, by contrast, makes the recursion diverge (see the
counterexample), because only canonical names enter the visited set while
the snapshot filter checks raw names; for the same reason a name may be
examined more than once even when the solver terminates. -/
theorem solve_terminates_canonical (db : TaskDB) (ctx : Context)
    (HC : ∀ x u, db.get x = .ok u → u.name = x) (seed : List String) :
    ∃ r, solve db ctx (unvisitedCount db [] + 2) seed = some r := by
  obtain ⟨r, hr⟩ := solveRec_total db ctx HC (unvisitedCount db [])
    ⟨[], [], []⟩ seed (unvisitedCount db [] + 2) (Nat.le_refl _) (Nat.le_refl _)
  refine ⟨r.map SolveState.result, ?_⟩
  unfold solve
  rw [hr]
  rfl

/-- Witness for the amended C8: a two-task `requires` cycle spelled with
canonical names (`x` requires `y`, `y` requires `x`) is solved at the stated
fuel bound. -/
theorem solve_terminates_canonical_witness :
    ∃ r, solve ((TaskDB.empty.add { Task.mk0 "x" with requires := ["y"] }).add
        { Task.mk0 "y" with requires := ["x"] }) ctxAll (2 + 2) ["x"] = some r := by
  have HC : ∀ (s : String) (u : Task),
      ((TaskDB.empty.add { Task.mk0 "x" with requires := ["y"] }).add
        { Task.mk0 "y" with requires := ["x"] }).get s = .ok u → u.name = s := by
    intro s u hs
    by_cases h1 : s = "x"
    · subst h1
      have he : ((TaskDB.empty.add { Task.mk0 "x" with requires := ["y"] }).add
          { Task.mk0 "y" with requires := ["x"] }).get "x"
          = .ok { Task.mk0 "x" with requires := ["y"] } := rfl
      rw [he] at hs
      rw [← Except.ok.inj hs]
      rfl
    · by_cases h2 : s = "y"
      · subst h2
        have he : ((TaskDB.empty.add { Task.mk0 "x" with requires := ["y"] }).add
            { Task.mk0 "y" with requires := ["x"] }).get "y"
            = .ok { Task.mk0 "y" with requires := ["x"] } := rfl
        rw [he] at hs
        rw [← Except.ok.inj hs]
        rfl
      · exfalso
        have hx : ("x" = s) = False := by
          simp
          exact fun habs => h1 habs.symm
        have hy : ("y" = s) = False := by
          simp
          exact fun habs => h2 habs.symm
        have hids : ((TaskDB.empty.add { Task.mk0 "x" with requires := ["y"] }).add
            { Task.mk0 "y" with requires := ["x"] }).ids s = [] := by
          unfold TaskDB.ids
          have hidx : ((TaskDB.empty.add { Task.mk0 "x" with requires := ["y"] }).add
              { Task.mk0 "y" with requires := ["x"] }).index
              = [("x", [0]), ("y", [1])] := rfl
          rw [hidx]
          simp [List.find?, hx, hy]
        unfold TaskDB.get at hs
        rw [hids] at hs
        exact Except.noConfusion hs
  have h4 : unvisitedCount ((TaskDB.empty.add { Task.mk0 "x" with requires := ["y"] }).add
      { Task.mk0 "y" with requires := ["x"] }) [] = 2 := rfl
  have := solve_terminates_canonical
    ((TaskDB.empty.add { Task.mk0 "x" with requires := ["y"] }).add
      { Task.mk0 "y" with requires := ["x"] }) ctxAll HC ["x"]
  rw [h4] at this
  exact this

/-! ## Claim C4: what the solver computes

The post-condition of a successful solver call, relative to a reachability
predicate `R` covering the call's pending names.  `visited` holds canonical
names of resolvable tasks; every pending name resolves and its canonical
name is visited; every newly visited name originates from an `R`-name, has
its `requires` covered by visited names, and is in `result` exactly when its
task is enabled. -/

def VisInv (db : TaskDB) (st : SolveState) : Prop :=
  ∀ c ∈ st.visited, ∃ t, db.get c = .ok t ∧ t.name = c

structure SolvePost (db : TaskDB) (ctx : Context) (R : String → Prop)
    (q : List String) (st st' : SolveState) : Prop where
  vis_mono : ∀ c ∈ st.visited, c ∈ st'.visited
  res_mono : ∀ c ∈ st.result, c ∈ st'.result
  vis_inv : VisInv db st'
  covers : ∀ x ∈ q, ∃ t, db.get x = .ok t ∧ t.name ∈ st'.visited
  origin : ∀ c ∈ st'.visited, ¬ c ∈ st.visited →
      ∃ x t, R x ∧ db.get x = .ok t ∧ t.name = c
  closure : ∀ c ∈ st'.visited, ¬ c ∈ st.visited →
      ∃ t, db.get c = .ok t ∧ t.name = c ∧
        ∀ r ∈ t.requires, ∃ u2, db.get r = .ok u2 ∧ u2.name ∈ st'.visited
  res_sound : ∀ c ∈ st'.result, c ∈ st.result ∨ (c ∈ st'.visited ∧
      ∃ t, db.get c = .ok t ∧ t.name = c ∧ t.enabled ctx = true)
  res_complete : ∀ c ∈ st'.visited, ¬ c ∈ st.visited →
      ∀ t, db.get c = .ok t → t.enabled ctx = true → c ∈ st'.result

theorem solvePost_nil (db : TaskDB) (ctx : Context) (R : String → Prop)
    {st : SolveState} (hvi : VisInv db st) :
    SolvePost db ctx R [] st st := by
  refine ⟨fun c hc => hc, fun c hc => hc, hvi, ?_, ?_, ?_, ?_, ?_⟩
  · intro x hx; simp at hx
  · intro c _ hc2; exact absurd (by assumption) hc2
  · intro c _ hc2; exact absurd (by assumption) hc2
  · intro c hc; exact Or.inl hc
  · intro c _ hc2; exact fun _ _ _ => absurd (by assumption) hc2

/-- Composition of the solver's loop body for one processed name: the
visited/result inserts, the optional recursion into `requires`
(`hmid`), and the continuation over the rest of the snapshot (`hrest`). -/
theorem solvePost_step (db : TaskDB) (ctx : Context) (R : String → Prop)
    (hC : Canonical db)
    {x : String} {u : Task} {st st1 st2 st' : SolveState} {rest : List String}
    (hg : db.get x = .ok u) (hqx : R x)
    (hv1 : st1.visited = insertName st.visited u.name)
    (hr1 : st1.result = (if u.enabled ctx = true then insertName st.result u.name
      else st.result))
    (hmid : (st2 = st1 ∧ u.requires = []) ∨ SolvePost db ctx R u.requires st1 st2)
    (hrest : SolvePost db ctx R rest st2 st') :
    SolvePost db ctx R (x :: rest) st st' := by
  have hgc : db.get u.name = .ok u := hC x u hg
  have hv1sub : ∀ c ∈ st.visited, c ∈ st1.visited := by
    intro c hc
    rw [hv1]
    exact insertName_subset hc
  have hr1sub : ∀ c ∈ st.result, c ∈ st1.result := by
    intro c hc
    rw [hr1]
    by_cases hen : u.enabled ctx = true
    · rw [if_pos hen]; exact insertName_subset hc
    · rw [if_neg hen]; exact hc
  have hmid_vis : ∀ c ∈ st1.visited, c ∈ st2.visited := by
    rcases hmid with ⟨rfl, _⟩ | hp
    · exact fun c hc => hc
    · exact hp.vis_mono
  have hmid_res : ∀ c ∈ st1.result, c ∈ st2.result := by
    rcases hmid with ⟨rfl, _⟩ | hp
    · exact fun c hc => hc
    · exact hp.res_mono
  have hunv : u.name ∈ st'.visited :=
    hrest.vis_mono _ (hmid_vis _ (by rw [hv1]; exact mem_insertName.mpr (Or.inr rfl)))
  refine ⟨?_, ?_, hrest.vis_inv, ?_, ?_, ?_, ?_, ?_⟩
  · exact fun c hc => hrest.vis_mono _ (hmid_vis _ (hv1sub _ hc))
  · exact fun c hc => hrest.res_mono _ (hmid_res _ (hr1sub _ hc))
  · intro y hy
    rcases List.mem_cons.mp hy with rfl | hy2
    · exact ⟨u, hg, hunv⟩
    · exact hrest.covers y hy2
  · -- origin
    intro c hc hcnew
    by_cases h1 : c ∈ st1.visited
    · rw [hv1] at h1
      rcases mem_insertName.mp h1 with h1a | rfl
      · exact absurd h1a hcnew
      · exact ⟨x, u, hqx, hg, rfl⟩
    · by_cases h2 : c ∈ st2.visited
      · rcases hmid with ⟨rfl, _⟩ | hp
        · exact absurd h2 h1
        · exact hp.origin c h2 h1
      · exact hrest.origin c hc h2
  · -- closure
    intro c hc hcnew
    by_cases h1 : c ∈ st1.visited
    · rw [hv1] at h1
      rcases mem_insertName.mp h1 with h1a | rfl
      · exact absurd h1a hcnew
      · refine ⟨u, hgc, rfl, ?_⟩
        rcases hmid with ⟨rfl, hreq⟩ | hp
        · rw [hreq]; intro r hr; simp at hr
        · intro r hr
          obtain ⟨u2, hu2, hu2v⟩ := hp.covers r hr
          exact ⟨u2, hu2, hrest.vis_mono _ hu2v⟩
    · by_cases h2 : c ∈ st2.visited
      · rcases hmid with ⟨rfl, _⟩ | hp
        · exact absurd h2 h1
        · obtain ⟨t, ht, htn, htr⟩ := hp.closure c h2 h1
          exact ⟨t, ht, htn, fun r hr => by
            obtain ⟨u2, hu2, hu2v⟩ := htr r hr
            exact ⟨u2, hu2, hrest.vis_mono _ hu2v⟩⟩
      · exact hrest.closure c hc h2
  · -- res_sound
    intro c hc
    rcases hrest.res_sound c hc with h2 | hdone
    · rcases hmid with ⟨heq, _⟩ | hp
      · -- st2 = st1
        rw [heq] at h2
        rw [hr1] at h2
        by_cases hen : u.enabled ctx = true
        · rw [if_pos hen] at h2
          rcases mem_insertName.mp h2 with h3 | rfl
          · exact Or.inl h3
          · exact Or.inr ⟨hunv, u, hgc, rfl, hen⟩
        · rw [if_neg hen] at h2
          exact Or.inl h2
      · rcases hp.res_sound c h2 with h3 | ⟨hcv, hrest2⟩
        · rw [hr1] at h3
          by_cases hen : u.enabled ctx = true
          · rw [if_pos hen] at h3
            rcases mem_insertName.mp h3 with h4 | rfl
            · exact Or.inl h4
            · exact Or.inr ⟨hunv, u, hgc, rfl, hen⟩
          · rw [if_neg hen] at h3
            exact Or.inl h3
        · exact Or.inr ⟨hrest.vis_mono _ hcv, hrest2⟩
    · exact Or.inr hdone
  · -- res_complete
    intro c hc hcnew t ht hten
    by_cases h1 : c ∈ st1.visited
    · rw [hv1] at h1
      rcases mem_insertName.mp h1 with h1a | rfl
      · exact absurd h1a hcnew
      · have htu : t = u := Except.ok.inj (ht.symm.trans hgc)
        have hen : u.enabled ctx = true := htu ▸ hten
        have : u.name ∈ st1.result := by
          rw [hr1, if_pos hen]
          exact mem_insertName.mpr (Or.inr rfl)
        exact hrest.res_mono _ (hmid_res _ this)
    · by_cases h2 : c ∈ st2.visited
      · rcases hmid with ⟨rfl, _⟩ | hp
        · exact absurd h2 h1
        · exact hrest.res_mono _ (hp.res_complete c h2 h1 t ht hten)
      · exact hrest.res_complete c hc h2 t ht hten

/-- Post-condition of the `for name in to_visit` loop, given the
post-condition of same-depth recursive calls. -/
theorem solveLoop_post (db : TaskDB) (ctx : Context) (R : String → Prop)
    (hC : Canonical db)
    (hRstep : ∀ x t r, R x → db.get x = .ok t → r ∈ t.requires → R r)
    (fuel : Nat)
    (hrec : ∀ p st st', solve_tasks_recursive db ctx fuel p st = some (.ok st') →
      (∀ x ∈ p, R x) → VisInv db st → SolvePost db ctx R p st st') :
    ∀ q st st', solveLoop db ctx fuel q st = some (.ok st') →
      (∀ x ∈ q, R x) → VisInv db st → SolvePost db ctx R q st st' := by
  intro q
  induction q with
  | nil =>
    intro st st' h hq hvi
    rw [solveLoop.eq_def] at h
    simp only [] at h
    cases Except.ok.inj (Option.some.inj h)
    exact solvePost_nil db ctx R hvi
  | cons x rest ih =>
    intro st st' h hq hvi
    rw [solveLoop.eq_def] at h
    simp only [] at h
    cases hg : db.get x with
    | error e =>
      rw [hg] at h
      simp only [] at h
      exact Except.noConfusion (Option.some.inj h)
    | ok u =>
      rw [hg] at h
      simp only [] at h
      have hqx : R x := hq x (List.mem_cons_self x rest)
      have hqrest : ∀ y ∈ rest, R y := fun y hy => hq y (List.mem_cons_of_mem x hy)
      have hreqR : ∀ r ∈ u.requires, R r := fun r hr => hRstep x u r hqx hg hr
      by_cases hen : u.enabled ctx = true
      · rw [if_pos hen] at h
        have hvi1 : VisInv db ⟨insertName st.result u.name,
            insertName st.visited u.name, st.skipped⟩ := by
          intro c hc
          rcases mem_insertName.mp hc with hcv | rfl
          · exact hvi c hcv
          · exact ⟨u, hC x u hg, rfl⟩
        by_cases hreq : u.requires.isEmpty = true
        · rw [if_pos hreq] at h
          have hrest := ih _ _ h hqrest hvi1
          exact solvePost_step db ctx R hC hg hqx rfl (by rw [if_pos hen])
            (Or.inl ⟨rfl, List.isEmpty_iff.mp hreq⟩) hrest
        · rw [if_neg hreq] at h
          cases hr2 : solve_tasks_recursive db ctx fuel u.requires
              ⟨insertName st.result u.name, insertName st.visited u.name, st.skipped⟩ with
          | none => rw [hr2] at h; exact Option.noConfusion h
          | some r2 =>
            rw [hr2] at h
            cases r2 with
            | error e =>
              simp only [] at h
              exact Except.noConfusion (Option.some.inj h)
            | ok st2 =>
              simp only [] at h
              have hmid := hrec _ _ _ hr2 hreqR hvi1
              have hrest := ih _ _ h hqrest hmid.vis_inv
              exact solvePost_step db ctx R hC hg hqx rfl (by rw [if_pos hen])
                (Or.inr hmid) hrest
      · rw [if_neg hen] at h
        have hvi1 : VisInv db ⟨st.result,
            insertName st.visited u.name, insertName st.skipped u.name⟩ := by
          intro c hc
          rcases mem_insertName.mp hc with hcv | rfl
          · exact hvi c hcv
          · exact ⟨u, hC x u hg, rfl⟩
        by_cases hreq : u.requires.isEmpty = true
        · rw [if_pos hreq] at h
          have hrest := ih _ _ h hqrest hvi1
          exact solvePost_step db ctx R hC hg hqx rfl (by rw [if_neg hen])
            (Or.inl ⟨rfl, List.isEmpty_iff.mp hreq⟩) hrest
        · rw [if_neg hreq] at h
          cases hr2 : solve_tasks_recursive db ctx fuel u.requires
              ⟨st.result, insertName st.visited u.name, insertName st.skipped u.name⟩ with
          | none => rw [hr2] at h; exact Option.noConfusion h
          | some r2 =>
            rw [hr2] at h
            cases r2 with
            | error e =>
              simp only [] at h
              exact Except.noConfusion (Option.some.inj h)
            | ok st2 =>
              simp only [] at h
              have hmid := hrec _ _ _ hr2 hreqR hvi1
              have hrest := ih _ _ h hqrest hmid.vis_inv
              exact solvePost_step db ctx R hC hg hqx rfl (by rw [if_neg hen])
                (Or.inr hmid) hrest

/-- Post-condition of a successful `solve_tasks_recursive` call. -/
theorem solveRec_post (db : TaskDB) (ctx : Context) (R : String → Prop)
    (hC : Canonical db)
    (hRstep : ∀ x t r, R x → db.get x = .ok t → r ∈ t.requires → R r) :
    ∀ fuel p st st', solve_tasks_recursive db ctx fuel p st = some (.ok st') →
      (∀ x ∈ p, R x) → VisInv db st → SolvePost db ctx R p st st' := by
  intro fuel
  induction fuel with
  | zero =>
    intro p st st' h
    rw [solve_tasks_recursive.eq_def] at h
    exact absurd h (by simp)
  | succ f ihf =>
    intro p st st' h hp hvi
    rw [solve_tasks_recursive.eq_def] at h
    simp only [] at h
    have hpost := solveLoop_post db ctx R hC hRstep f ihf _ _ _ h
      (fun x hx => hp x (List.mem_filter.mp hx).1) hvi
    refine ⟨hpost.vis_mono, hpost.res_mono, hpost.vis_inv, ?_, hpost.origin,
      hpost.closure, hpost.res_sound, hpost.res_complete⟩
    intro x hx
    by_cases hxv : x ∈ st.visited
    · obtain ⟨t, ht, htn⟩ := hvi x hxv
      exact ⟨t, ht, htn ▸ hpost.vis_mono x hxv⟩
    · apply hpost.covers
      apply List.mem_filter.mpr
      refine ⟨hx, ?_⟩
      simp
      exact hxv

/-- A solver error is a dangling reference at a name the recursion actually
reached. -/
theorem solver_err (db : TaskDB) (ctx : Context) (R : String → Prop)
    (hRstep : ∀ x t r, R x → db.get x = .ok t → r ∈ t.requires → R r) :
    ∀ fuel : Nat,
      (∀ p st e, solve_tasks_recursive db ctx fuel p st = some (.error e) →
        (∀ x ∈ p, R x) → ∃ x e2, R x ∧ db.get x = .error e2)
      ∧ (∀ q st e, solveLoop db ctx fuel q st = some (.error e) →
        (∀ x ∈ q, R x) → ∃ x e2, R x ∧ db.get x = .error e2) := by
  intro fuel
  induction fuel with
  | zero =>
    refine ⟨?_, ?_⟩
    · intro p st e h
      rw [solve_tasks_recursive.eq_def] at h
      exact absurd h (by simp)
    · intro q
      induction q with
      | nil =>
        intro st e h _
        rw [solveLoop.eq_def] at h
        simp only [] at h
        exact absurd (Option.some.inj h) (by simp)
      | cons x rest ihq =>
        intro st e h hq
        rw [solveLoop.eq_def] at h
        simp only [] at h
        cases hg : db.get x with
        | error e2 => exact ⟨x, e2, hq x (List.mem_cons_self x rest), hg⟩
        | ok u =>
          rw [hg] at h
          simp only [] at h
          have hqrest : ∀ y ∈ rest, R y := fun y hy => hq y (List.mem_cons_of_mem x hy)
          have hnone : ∀ st1 : SolveState,
              solve_tasks_recursive db ctx 0 u.requires st1 = none := by
            intro st1
            rw [solve_tasks_recursive.eq_def]
          by_cases hen : u.enabled ctx = true
          · rw [if_pos hen] at h
            by_cases hreq : u.requires.isEmpty = true
            · rw [if_pos hreq] at h
              exact ihq _ _ h hqrest
            · rw [if_neg hreq, hnone] at h
              exact Option.noConfusion h
          · rw [if_neg hen] at h
            by_cases hreq : u.requires.isEmpty = true
            · rw [if_pos hreq] at h
              exact ihq _ _ h hqrest
            · rw [if_neg hreq, hnone] at h
              exact Option.noConfusion h
  | succ f ihf =>
    have hrecE : ∀ p st e, solve_tasks_recursive db ctx (f + 1) p st = some (.error e) →
        (∀ x ∈ p, R x) → ∃ x e2, R x ∧ db.get x = .error e2 := by
      intro p st e h hp
      rw [solve_tasks_recursive.eq_def] at h
      simp only [] at h
      exact ihf.2 _ _ _ h (fun x hx => hp x (List.mem_filter.mp hx).1)
    refine ⟨hrecE, ?_⟩
    intro q
    induction q with
    | nil =>
      intro st e h _
      rw [solveLoop.eq_def] at h
      simp only [] at h
      exact absurd (Option.some.inj h) (by simp)
    | cons x rest ihq =>
      intro st e h hq
      rw [solveLoop.eq_def] at h
      simp only [] at h
      cases hg : db.get x with
      | error e2 => exact ⟨x, e2, hq x (List.mem_cons_self x rest), hg⟩
      | ok u =>
        rw [hg] at h
        simp only [] at h
        have hqx : R x := hq x (List.mem_cons_self x rest)
        have hqrest : ∀ y ∈ rest, R y := fun y hy => hq y (List.mem_cons_of_mem x hy)
        have hreqR : ∀ r ∈ u.requires, R r := fun r hr => hRstep x u r hqx hg hr
        by_cases hen : u.enabled ctx = true
        · rw [if_pos hen] at h
          by_cases hreq : u.requires.isEmpty = true
          · rw [if_pos hreq] at h
            exact ihq _ _ h hqrest
          · rw [if_neg hreq] at h
            cases hr2 : solve_tasks_recursive db ctx (f + 1) u.requires
                ⟨insertName st.result u.name, insertName st.visited u.name, st.skipped⟩ with
            | none => rw [hr2] at h; exact Option.noConfusion h
            | some r2 =>
              rw [hr2] at h
              cases r2 with
              | error e3 =>
                simp only [] at h
                exact hrecE _ _ _ hr2 hreqR
              | ok st2 =>
                simp only [] at h
                exact ihq _ _ h hqrest
        · rw [if_neg hen] at h
          by_cases hreq : u.requires.isEmpty = true
          · rw [if_pos hreq] at h
            exact ihq _ _ h hqrest
          · rw [if_neg hreq] at h
            cases hr2 : solve_tasks_recursive db ctx (f + 1) u.requires
                ⟨st.result, insertName st.visited u.name, insertName st.skipped u.name⟩ with
            | none => rw [hr2] at h; exact Option.noConfusion h
            | some r2 =>
              rw [hr2] at h
              cases r2 with
              | error e3 =>
                simp only [] at h
                exact hrecE _ _ _ hr2 hreqR
              | ok st2 =>
                simp only [] at h
                exact ihq _ _ h hqrest

/-- **C4.** The solver's value, when the recursion completes: an error is a
dangling reference among the names reachable from the seed through
`requires` edges; a successful result contains exactly the canonical names
of the enabled tasks reachable from the seed — with `requires` of disabled
tasks traversed all the same (`Reach` does not look at enablement).  The
`Canonical` hypothesis rules out the shadowed-name registrations that the
specification rejects as duplicate registration. -/
theorem solve_tasks_spec (db : TaskDB) (ctx : Context) (hC : Canonical db)
    (fuel : Nat) (seed : List String) (res : Except String (List String))
    (h : solve db ctx fuel seed = some res) :
    (∀ e, res = .error e → ∃ x e2, Reach db seed x ∧ db.get x = .error e2)
    ∧ (∀ r, res = .ok r → ∀ c,
        c ∈ r ↔ ∃ x t, Reach db seed x ∧ db.get x = .ok t
          ∧ t.enabled ctx = true ∧ t.name = c) := by
  have hstep : ∀ x t r2, Reach db seed x → db.get x = .ok t → r2 ∈ t.requires →
      Reach db seed r2 := fun x t r2 hx hg hr2 => Reach.step hx hg hr2
  unfold solve at h
  cases hrec : solve_tasks_recursive db ctx fuel seed ⟨[], [], []⟩ with
  | none => rw [hrec] at h; exact Option.noConfusion h
  | some r0 =>
    rw [hrec] at h
    have hres : res = r0.map SolveState.result := (Option.some.inj h).symm
    constructor
    · intro e he
      cases r0 with
      | error e0 =>
        obtain ⟨x, e2, hx, he2⟩ := (solver_err db ctx (Reach db seed) hstep fuel).1
          seed ⟨[], [], []⟩ e0 hrec (fun x hx => Reach.seed hx)
        exact ⟨x, e2, hx, he2⟩
      | ok stF =>
        rw [hres] at he
        exact Except.noConfusion he
    · intro r hr c
      cases r0 with
      | error e0 =>
        rw [hres] at hr
        exact Except.noConfusion hr
      | ok stF =>
        rw [hres] at hr
        have hrr : stF.result = r := Except.ok.inj hr
        subst hrr
        have hpost := solveRec_post db ctx (Reach db seed) hC hstep fuel seed
          ⟨[], [], []⟩ stF hrec (fun x hx => Reach.seed hx)
          (fun c2 hc2 => absurd hc2 (List.not_mem_nil c2))
        have hcov : ∀ y, Reach db seed y →
            ∃ ty, db.get y = .ok ty ∧ ty.name ∈ stF.visited := by
          intro y hy
          induction hy with
          | seed hmem => exact hpost.covers _ hmem
          | step hy2 hgy2 hr2 ih2 =>
            rename_i x0 r2 t0
            obtain ⟨ty, hgty, htyv⟩ := ih2
            have hty0 : ty = t0 := Except.ok.inj (hgty.symm.trans hgy2)
            subst hty0
            obtain ⟨tc, hgtc, htcn, htcreq⟩ := hpost.closure _ htyv
              (List.not_mem_nil _)
            have htc : tc = ty := by
              have := hC x0 ty hgy2
              exact Except.ok.inj (hgtc.symm.trans this)
            subst htc
            exact htcreq r2 hr2
        constructor
        · intro hcr
          rcases hpost.res_sound c hcr with h0 | ⟨hcv, t, ht, htn, hten⟩
          · exact absurd h0 (List.not_mem_nil c)
          · obtain ⟨x, tx, hx, hgx, htxn⟩ := hpost.origin c hcv (List.not_mem_nil c)
            have hgc2 : db.get c = .ok tx := htxn ▸ hC x tx hgx
            have htx : t = tx := Except.ok.inj (ht.symm.trans hgc2)
            exact ⟨x, tx, hx, hgx, htx ▸ hten, htxn⟩
        · rintro ⟨x, t, hx, hgx, hten, htn⟩
          obtain ⟨tx, hgtx, htxv⟩ := hcov x hx
          have htx : tx = t := Except.ok.inj (hgtx.symm.trans hgx)
          subst htx
          rw [htn] at htxv
          have hgc : db.get c = .ok tx := htn ▸ hC x tx hgx
          exact hpost.res_complete c htxv (List.not_mem_nil c) tx hgc hten

/-- Witness for C4: on a one-task database, applying the characterisation at
the concrete run `solve ["s"]` produces the reachable enabled task. -/
theorem solve_tasks_spec_witness :
    ∃ x t, Reach (TaskDB.empty.add (Task.mk0 "s")) ["s"] x
      ∧ (TaskDB.empty.add (Task.mk0 "s")).get x = .ok t
      ∧ t.enabled ctxAll = true ∧ t.name = "s" := by
  have hC : Canonical (TaskDB.empty.add (Task.mk0 "s")) := by
    intro x t hg
    by_cases hx : x = "s"
    · subst hx
      have he : (TaskDB.empty.add (Task.mk0 "s")).get "s" = .ok (Task.mk0 "s") := rfl
      rw [he] at hg
      rw [← Except.ok.inj hg]
      exact he
    · exfalso
      have hsx : ("s" = x) = False := by
        simp
        exact fun habs => hx habs.symm
      have hids : (TaskDB.empty.add (Task.mk0 "s")).ids x = [] := by
        unfold TaskDB.ids
        have hidx : (TaskDB.empty.add (Task.mk0 "s")).index = [("s", [0])] := rfl
        rw [hidx]
        simp [List.find?, hsx]
      unfold TaskDB.get at hg
      rw [hids] at hg
      exact Except.noConfusion hg
  have hev : solve_tasks_recursive (TaskDB.empty.add (Task.mk0 "s")) ctxAll 2 ["s"]
      ⟨[], [], []⟩ = some (.ok ⟨["s"], ["s"], []⟩) := by
    rw [solve_tasks_recursive.eq_def]
    show solveLoop (TaskDB.empty.add (Task.mk0 "s")) ctxAll 1 ["s"] ⟨[], [], []⟩
      = some (.ok ⟨["s"], ["s"], []⟩)
    rw [solveLoop.eq_def]
    show solveLoop (TaskDB.empty.add (Task.mk0 "s")) ctxAll 1 [] ⟨["s"], ["s"], []⟩
      = some (.ok ⟨["s"], ["s"], []⟩)
    rw [solveLoop.eq_def]
  have hsolve : solve (TaskDB.empty.add (Task.mk0 "s")) ctxAll 2 ["s"]
      = some (.ok ["s"]) := by
    unfold solve
    rw [hev]
    rfl
  have h := (solve_tasks_spec (TaskDB.empty.add (Task.mk0 "s")) ctxAll hC 2 ["s"]
    (.ok ["s"]) hsolve).2 ["s"] rfl "s"
  exact h.mp (by simp)

/-! ## Claim C5: the built predecessor map

Primitive dictionary lemmas for the association-list embedding of `deps`. -/

theorem depsLookup_keyMap (g : String → List String → List String) :
    ∀ (d : Deps) (u : String),
      depsLookup (d.map (fun p => (p.1, g p.1 p.2))) u = (depsLookup d u).map (g u) := by
  intro d
  induction d with
  | nil => intro u; rfl
  | cons p d2 ih =>
    intro u
    by_cases hp : p.1 = u
    · unfold depsLookup
      rw [List.map_cons, List.find?_cons_of_pos _ (by simp [hp]),
        List.find?_cons_of_pos _ (by simp [hp])]
      simp [hp]
    · unfold depsLookup
      rw [List.map_cons, List.find?_cons_of_neg _ (by simp [hp]),
        List.find?_cons_of_neg _ (by simp [hp])]
      exact ih u

theorem depsAppend_eq_keyMap (d : Deps) (k x : String) :
    depsAppend d k x = d.map (fun p => (p.1, if p.1 = k then p.2 ++ [x] else p.2)) := by
  unfold depsAppend
  apply List.map_congr_left
  intro p _
  by_cases hp : p.1 = k
  · simp [hp]
  · simp [hp]

theorem depsLookup_append (d : Deps) (k x u : String) :
    depsLookup (depsAppend d k x) u
      = (depsLookup d u).map (fun l => if u = k then l ++ [x] else l) := by
  rw [depsAppend_eq_keyMap, depsLookup_keyMap (fun key l => if key = k then l ++ [x] else l)]

theorem depsLookup_nil (u : String) : depsLookup [] u = none := rfl

theorem depsLookup_cons (p : String × List String) (d : Deps) (u : String) :
    depsLookup (p :: d) u = if p.1 = u then some p.2 else depsLookup d u := by
  unfold depsLookup
  by_cases hp : p.1 = u
  · rw [List.find?_cons_of_pos _ (by simp [hp]), if_pos hp]
    rfl
  · rw [List.find?_cons_of_neg _ (by simp [hp]), if_neg hp]

theorem hasKey_iff_lookup (d : Deps) (k : String) :
    hasKey d k = true ↔ ∃ l, depsLookup d k = some l := by
  induction d with
  | nil =>
    constructor
    · intro h; exact absurd h (by simp [hasKey])
    · rintro ⟨l, hl⟩; exact absurd hl (by simp [depsLookup_nil])
  | cons p d2 ih =>
    by_cases hp : p.1 = k
    · constructor
      · intro _
        exact ⟨p.2, by rw [depsLookup_cons, if_pos hp]⟩
      · intro _
        unfold hasKey
        apply List.any_eq_true.mpr
        exact ⟨p, List.mem_cons_self p d2, by simp [hp]⟩
    · have hstep : hasKey (p :: d2) k = hasKey d2 k := by
        unfold hasKey
        simp [List.any_cons, hp]
      rw [hstep, depsLookup_cons, if_neg hp]
      exact ih

theorem depsLookup_concat (d : Deps) (k : String) (v : List String) (u : String) :
    depsLookup (d ++ [(k, v)]) u
      = match depsLookup d u with
        | some l => some l
        | none => if u = k then some v else none := by
  induction d with
  | nil =>
    rw [List.nil_append, depsLookup_cons]
    simp only [depsLookup_nil]
    by_cases hu : u = k
    · subst hu
      simp
    · have h2 : ¬ (k = u) := fun habs => hu habs.symm
      simp [hu, h2]
  | cons p d2 ih =>
    rw [List.cons_append, depsLookup_cons, depsLookup_cons]
    by_cases hp : p.1 = u
    · simp [hp]
    · simp only [if_neg hp]
      exact ih

theorem depsLookup_set (d : Deps) (k : String) (v : List String) (u : String) :
    depsLookup (depsSet d k v) u = if u = k then some v else depsLookup d u := by
  unfold depsSet
  by_cases hk : hasKey d k = true
  · rw [if_pos hk]
    have hmap : d.map (fun p => if p.1 = k then (k, v) else p)
        = d.map (fun p => (p.1, if p.1 = k then v else p.2)) := by
      apply List.map_congr_left
      intro p _
      by_cases hp : p.1 = k
      · simp [hp]
      · simp [hp]
    rw [hmap, depsLookup_keyMap (fun key l => if key = k then v else l)]
    by_cases hu : u = k
    · subst hu
      obtain ⟨l, hl⟩ := (hasKey_iff_lookup d u).mp hk
      rw [hl]
      simp
    · rw [if_neg hu]
      cases hl : depsLookup d u with
      | none => simp
      | some l => simp [hu]
  · rw [if_neg hk]
    rw [depsLookup_concat]
    by_cases hu : u = k
    · subst hu
      have hnone : depsLookup d u = none := by
        cases hl : depsLookup d u with
        | none => rfl
        | some l => exact absurd ((hasKey_iff_lookup d u).mpr ⟨l, hl⟩) hk
      rw [hnone]
    · cases hl : depsLookup d u with
      | none => rfl
      | some l =>
        show some l = if u = k then some v else some l
        rw [if_neg hu]

/-- Membership in the `after`-edge list the builder computes for `u` over
the solved set `S`. -/
def afterMem (db : TaskDB) (S : List String) (u y : String) : Prop :=
  ∃ tu, db.get u = .ok tu ∧
    ((tu.after.contains "*" = true ∧ y ∈ S ∧ y ≠ u)
      ∨ (tu.after.contains "*" = false ∧ y ∈ S
          ∧ ∃ a ∈ tu.after, ∃ ta, db.get a = .ok ta ∧ ta.name = y))

theorem exceptMap_ok {α β} {f : α → β} {e : Except String α} {y : β} :
    (e.map f = .ok y) ↔ ∃ t, e = .ok t ∧ f t = y := by
  cases e with
  | error e2 => simp [Except.map]
  | ok a =>
    simp [Except.map, eq_comm]

theorem afterGo_post (db : TaskDB) (S : List String)
    (hcanonS : ∀ x ∈ S, ∃ t, db.get x = .ok t ∧ t.name = x) :
    ∀ pending acc d, afterGo db S pending acc = .ok d →
      pending.Nodup →
      (∀ x ∈ pending, ∃ t, db.get x = .ok t ∧ t.name = x) →
      (∀ u ∈ pending, ∃ l, depsLookup d u = some l
        ∧ ∀ y, (y ∈ l ↔ afterMem db S u y))
      ∧ (∀ u, ¬ u ∈ pending → depsLookup d u = depsLookup acc u) := by
  intro pending
  induction pending with
  | nil =>
    intro acc d h _ _
    unfold afterGo at h
    cases Except.ok.inj h
    exact ⟨fun u hu => absurd hu (List.not_mem_nil u), fun u _ => rfl⟩
  | cons x rest ih =>
    intro acc d h hnd hcp
    unfold afterGo at h
    cases hg : db.get x with
    | error e => rw [hg] at h; exact Except.noConfusion h
    | ok task =>
      rw [hg] at h
      simp only [] at h
      have hxname : task.name = x := by
        obtain ⟨t, ht, htn⟩ := hcp x (List.mem_cons_self x rest)
        have : task = t := Except.ok.inj (hg.symm.trans ht)
        rw [this, htn]
      have hxrest : ¬ x ∈ rest := (List.nodup_cons.mp hnd).1
      have hndrest : rest.Nodup := (List.nodup_cons.mp hnd).2
      have hcprest : ∀ y ∈ rest, ∃ t, db.get y = .ok t ∧ t.name = y :=
        fun y hy => hcp y (List.mem_cons_of_mem x hy)
      by_cases hstar : task.after.contains "*" = true
      · rw [if_pos hstar] at h
        cases hm : mapE (fun x2 => (db.get x2).map Task.name)
            (S.filter (fun x2 => x2 ≠ task.name)) with
        | error e => rw [hm] at h; exact Except.noConfusion h
        | ok v =>
          rw [hm] at h
          simp only [] at h
          obtain ⟨hrest, hother⟩ := ih (depsSet acc task.name v) d h hndrest hcprest
          have hvmem : ∀ y, y ∈ v ↔ afterMem db S x y := by
            intro y
            rw [mapE_ok_mem hm y]
            constructor
            · rintro ⟨x2, hx2, hx2g⟩
              have hx2S := (List.mem_filter.mp hx2).1
              have hx2ne : x2 ≠ task.name := by
                have := (List.mem_filter.mp hx2).2
                simpa using this
              obtain ⟨t2, ht2, ht2n⟩ := exceptMap_ok.mp hx2g
              obtain ⟨t3, ht3, ht3n⟩ := hcanonS x2 hx2S
              have ht23 : t2 = t3 := Except.ok.inj (ht2.symm.trans ht3)
              have hyx2 : y = x2 := by rw [← ht2n, ht23, ht3n]
              refine ⟨task, hxname ▸ hg, Or.inl ⟨hstar, hyx2 ▸ hx2S, ?_⟩⟩
              rw [hyx2, ← hxname]
              exact hx2ne
            · rintro ⟨tu, htu, hcase⟩
              have htask : tu = task := by
                have hgx : db.get x = .ok tu := hxname ▸ htu
                exact Except.ok.inj (hgx.symm.trans hg)
              rcases hcase with ⟨_, hyS, hyne⟩ | ⟨hfalse, _, _⟩
              · obtain ⟨ty, hty, htyn⟩ := hcanonS y hyS
                refine ⟨y, List.mem_filter.mpr ⟨hyS, by
                  rw [hxname]
                  exact decide_eq_true hyne⟩, ?_⟩
                exact exceptMap_ok.mpr ⟨ty, hty, htyn⟩
              · rw [htask] at hfalse
                rw [hstar] at hfalse
                exact Bool.noConfusion hfalse
          constructor
          · intro u hu
            rcases List.mem_cons.mp hu with rfl | hu2
            · refine ⟨v, ?_, hvmem⟩
              rw [hother u hxrest, depsLookup_set, hxname, if_pos rfl]
            · exact hrest u hu2
          · intro u hu
            have hune : ¬ u ∈ rest := fun h2 => hu (List.mem_cons_of_mem x h2)
            have hunx : u ≠ x := fun h2 => hu (h2 ▸ List.mem_cons_self x rest)
            rw [hother u hune, depsLookup_set, hxname, if_neg hunx]
      · rw [if_neg hstar] at h
        cases hm : mapE (fun x2 => (db.get x2).map Task.name) task.after with
        | error e => rw [hm] at h; exact Except.noConfusion h
        | ok ats =>
          rw [hm] at h
          simp only [] at h
          obtain ⟨hrest, hother⟩ := ih (depsSet acc task.name
            (ats.filter (fun x2 => S.contains x2))) d h hndrest hcprest
          have hvmem : ∀ y, y ∈ ats.filter (fun x2 => S.contains x2) ↔ afterMem db S x y := by
            intro y
            constructor
            · intro hy
              have hyats := (List.mem_filter.mp hy).1
              have hyS : y ∈ S := by
                have := (List.mem_filter.mp hy).2
                exact List.elem_iff.mp this
              obtain ⟨a, ha, hag⟩ := (mapE_ok_mem hm y).mp hyats
              obtain ⟨ta, hta, htan⟩ := exceptMap_ok.mp hag
              exact ⟨task, hxname ▸ hg, Or.inr ⟨by simpa using hstar, hyS,
                a, ha, ta, hta, htan⟩⟩
            · rintro ⟨tu, htu, hcase⟩
              have htask : tu = task := by
                have hgx : db.get x = .ok tu := hxname ▸ htu
                exact Except.ok.inj (hgx.symm.trans hg)
              rcases hcase with ⟨htrue, _, _⟩ | ⟨_, hyS, a, ha, ta, hta, htan⟩
              · rw [htask] at htrue
                exact absurd htrue hstar
              · apply List.mem_filter.mpr
                refine ⟨?_, List.elem_iff.mpr hyS⟩
                apply (mapE_ok_mem hm y).mpr
                refine ⟨a, htask ▸ ha, ?_⟩
                exact exceptMap_ok.mpr ⟨ta, hta, htan⟩
          constructor
          · intro u hu
            rcases List.mem_cons.mp hu with rfl | hu2
            · refine ⟨ats.filter (fun x2 => S.contains x2), ?_, hvmem⟩
              rw [hother u hxrest, depsLookup_set, hxname, if_pos rfl]
            · exact hrest u hu2
          · intro u hu
            have hune : ¬ u ∈ rest := fun h2 => hu (List.mem_cons_of_mem x h2)
            have hunx : u ≠ x := fun h2 => hu (h2 ▸ List.mem_cons_self x rest)
            rw [hother u hune, depsLookup_set, hxname, if_neg hunx]

theorem key_mem_of_lookup {d : Deps} {u : String} {l : List String}
    (h : depsLookup d u = some l) : u ∈ d.map Prod.fst := by
  unfold depsLookup at h
  cases hf : d.find? (fun q => q.1 = u) with
  | none => rw [hf] at h; exact Option.noConfusion h
  | some q =>
    have hq := List.mem_of_find?_eq_some hf
    have hq1 := List.find?_some hf
    simp at hq1
    exact hq1 ▸ List.mem_map_of_mem Prod.fst hq

theorem addAllGo_post (name : String) :
    ∀ (ts : List Task) (d d' : Deps), addAllGo name ts d = .ok d' →
      ∀ u, ((depsLookup d' u).isSome = (depsLookup d u).isSome)
        ∧ ∀ l', depsLookup d' u = some l' → ∃ l, depsLookup d u = some l ∧
            ∀ y, (y ∈ l' ↔ y ∈ l ∨ (y = name
              ∧ ∃ t ∈ ts, t.name = u ∧ t.before.contains "*" = false)) := by
  intro ts
  induction ts with
  | nil =>
    intro d d' h u
    unfold addAllGo at h
    cases Except.ok.inj h
    exact ⟨rfl, fun l' hl' => ⟨l', hl', fun y => by simp⟩⟩
  | cons t ts2 ih =>
    intro d d' h u
    unfold addAllGo at h
    by_cases htb : t.before.contains "*" = true
    · rw [if_pos htb] at h
      obtain ⟨hiso, hmem⟩ := ih d d' h u
      refine ⟨hiso, ?_⟩
      intro l' hl'
      obtain ⟨l, hl, hiff⟩ := hmem l' hl'
      refine ⟨l, hl, fun y => ?_⟩
      rw [hiff y]
      constructor
      · rintro (hy | ⟨rfl, t2, ht2, ht2n, ht2b⟩)
        · exact Or.inl hy
        · exact Or.inr ⟨rfl, t2, List.mem_cons_of_mem t ht2, ht2n, ht2b⟩
      · rintro (hy | ⟨rfl, t2, ht2, ht2n, ht2b⟩)
        · exact Or.inl hy
        · rcases List.mem_cons.mp ht2 with rfl | ht2c
          · rw [htb] at ht2b; exact Bool.noConfusion ht2b
          · exact Or.inr ⟨rfl, t2, ht2c, ht2n, ht2b⟩
    · rw [if_neg htb] at h
      by_cases hkk : hasKey d t.name = true
      · rw [if_pos hkk] at h
        obtain ⟨hiso, hmem⟩ := ih (depsAppend d t.name name) d' h u
        have happ : depsLookup (depsAppend d t.name name) u
            = (depsLookup d u).map (fun l => if u = t.name then l ++ [name] else l) :=
          depsLookup_append d t.name name u
        refine ⟨by rw [hiso, happ]; cases depsLookup d u <;> rfl, ?_⟩
        intro l' hl'
        obtain ⟨l2, hl2, hiff⟩ := hmem l' hl'
        rw [happ] at hl2
        obtain ⟨l, hl, hl2eq⟩ := Option.map_eq_some'.mp hl2
        refine ⟨l, hl, fun y => ?_⟩
        rw [hiff y]
        have hl2mem : ∀ y2, y2 ∈ l2 ↔ y2 ∈ l ∨ (u = t.name ∧ y2 = name) := by
          intro y2
          rw [← hl2eq]
          by_cases hu : u = t.name
          · simp [hu]
          · simp [hu]
        rw [hl2mem y]
        constructor
        · rintro ((hy | ⟨hu, rfl⟩) | ⟨rfl, t2, ht2, ht2n, ht2b⟩)
          · exact Or.inl hy
          · exact Or.inr ⟨rfl, t, List.mem_cons_self t ts2, hu.symm, by simpa using htb⟩
          · exact Or.inr ⟨rfl, t2, List.mem_cons_of_mem t ht2, ht2n, ht2b⟩
        · rintro (hy | ⟨rfl, t2, ht2, ht2n, ht2b⟩)
          · exact Or.inl (Or.inl hy)
          · rcases List.mem_cons.mp ht2 with rfl | ht2c
            · exact Or.inl (Or.inr ⟨ht2n.symm, rfl⟩)
            · exact Or.inr ⟨rfl, t2, ht2c, ht2n, ht2b⟩
      · rw [if_neg hkk] at h
        exact Except.noConfusion h

/-- `deps_add_all`, characterised: appends `name` under exactly the keys
whose (canonically named) task does not list `"*"` in `before`. -/
theorem deps_add_all_post (db : TaskDB) (name : String) {d d' : Deps}
    (h : deps_add_all db d name = .ok d')
    (hkeys : ∀ k l, depsLookup d k = some l → ∃ t, db.get k = .ok t ∧ t.name = k) :
    ∀ u, ((depsLookup d' u).isSome = (depsLookup d u).isSome)
      ∧ ∀ l', depsLookup d' u = some l' → ∃ l, depsLookup d u = some l ∧
          ∀ y, (y ∈ l' ↔ y ∈ l ∨ (y = name
            ∧ ∃ tu, db.get u = .ok tu ∧ tu.before.contains "*" = false)) := by
  unfold deps_add_all at h
  cases hm : mapE db.get (d.map Prod.fst) with
  | error e => rw [hm] at h; exact Except.noConfusion h
  | ok ts =>
    rw [hm] at h
    intro u
    obtain ⟨hiso, hmem⟩ := addAllGo_post name ts d d' h u
    refine ⟨hiso, ?_⟩
    intro l' hl'
    obtain ⟨l, hl, hiff⟩ := hmem l' hl'
    refine ⟨l, hl, fun y => ?_⟩
    rw [hiff y]
    constructor
    · rintro (hy | ⟨rfl, t2, ht2, ht2n, ht2b⟩)
      · exact Or.inl hy
      · obtain ⟨k, hk, hkg⟩ := (mapE_ok_mem hm t2).mp ht2
        have hex : ∃ lk, depsLookup d k = some lk := by
          apply (hasKey_iff_lookup d k).mp
          apply List.any_eq_true.mpr
          obtain ⟨p, hp, hpk⟩ := List.mem_map.mp hk
          exact ⟨p, hp, by simp [hpk]⟩
        obtain ⟨lk, hlk⟩ := hex
        obtain ⟨tk, htk, htkn⟩ := hkeys k lk hlk
        have ht2tk : t2 = tk := Except.ok.inj (hkg.symm.trans htk)
        have hku : k = u := by rw [← ht2n, ht2tk, htkn]
        exact Or.inr ⟨rfl, t2, hku ▸ hkg, ht2b⟩
    · rintro (hy | ⟨rfl, tu, htu, htub⟩)
      · exact Or.inl hy
      · refine Or.inr ⟨rfl, tu, ?_, ?_, htub⟩
        · apply (mapE_ok_mem hm tu).mpr
          exact ⟨u, key_mem_of_lookup hl, htu⟩
        · obtain ⟨t3, ht3, ht3n⟩ := hkeys u l hl
          have : tu = t3 := Except.ok.inj (htu.symm.trans ht3)
          rw [this, ht3n]

/-- One `before` entry of a task contributes to key `u`: `"*"` hits every
key whose task does not itself list `"*"`, any other entry hits the key its
resolved name picks out. -/
def beforeHit (db : TaskDB) (u : String) (entries : List String) : Prop :=
  ∃ s ∈ entries, (s = "*" ∧ ∃ tu, db.get u = .ok tu ∧ tu.before.contains "*" = false)
    ∨ (s ≠ "*" ∧ ∃ us, db.get s = .ok us ∧ us.name = u)

/-- A task of the processed list contributes its resolved name as a
predecessor of `u`. -/
def beforeContrib (db : TaskDB) (xs : List String) (u y : String) : Prop :=
  ∃ x ∈ xs, ∃ tx, db.get x = .ok tx ∧ y = tx.name ∧ beforeHit db u tx.before

theorem beforeEntryGo_post (db : TaskDB) (tname : String) :
    ∀ (entries : List String) (d d' : Deps), beforeEntryGo db tname entries d = .ok d' →
      (∀ k l, depsLookup d k = some l → ∃ t, db.get k = .ok t ∧ t.name = k) →
      ∀ u, ((depsLookup d' u).isSome = (depsLookup d u).isSome)
        ∧ ∀ l', depsLookup d' u = some l' → ∃ l, depsLookup d u = some l ∧
            ∀ y, (y ∈ l' ↔ y ∈ l ∨ (y = tname ∧ beforeHit db u entries)) := by
  intro entries
  induction entries with
  | nil =>
    intro d d' h _ u
    unfold beforeEntryGo at h
    cases Except.ok.inj h
    exact ⟨rfl, fun l' hl' => ⟨l', hl', fun y => by simp [beforeHit]⟩⟩
  | cons s rest ih =>
    intro d d' h hkeys u
    unfold beforeEntryGo at h
    by_cases hs : s = "*"
    · rw [if_pos hs] at h
      cases ha : deps_add_all db d tname with
      | error e => rw [ha] at h; exact Except.noConfusion h
      | ok d2 =>
        rw [ha] at h
        simp only [] at h
        have hstep := deps_add_all_post db tname ha hkeys
        have hkeys2 : ∀ k l, depsLookup d2 k = some l →
            ∃ t, db.get k = .ok t ∧ t.name = k := by
          intro k l hl
          have hiso := (hstep k).1
          rw [hl] at hiso
          cases hlk : depsLookup d k with
          | none => rw [hlk] at hiso; exact absurd hiso.symm (by simp)
          | some lk => exact hkeys k lk hlk
        obtain ⟨hiso2, hmem2⟩ := ih d2 d' h hkeys2 u
        obtain ⟨hiso1, hmem1⟩ := hstep u
        refine ⟨by rw [hiso2, hiso1], ?_⟩
        intro l' hl'
        obtain ⟨l2, hl2, hiff2⟩ := hmem2 l' hl'
        obtain ⟨l, hl, hiff1⟩ := hmem1 l2 hl2
        refine ⟨l, hl, fun y => ?_⟩
        rw [hiff2 y, hiff1 y]
        unfold beforeHit
        constructor
        · rintro ((hy | ⟨rfl, tu, htu, htub⟩) | ⟨rfl, hit⟩)
          · exact Or.inl hy
          · exact Or.inr ⟨rfl, s, List.mem_cons_self s rest,
              Or.inl ⟨hs, tu, htu, htub⟩⟩
          · obtain ⟨s2, hs2, hcase⟩ := hit
            exact Or.inr ⟨rfl, s2, List.mem_cons_of_mem s hs2, hcase⟩
        · rintro (hy | ⟨rfl, s2, hs2, hcase⟩)
          · exact Or.inl (Or.inl hy)
          · rcases List.mem_cons.mp hs2 with rfl | hs2c
            · rcases hcase with ⟨_, tu, htu, htub⟩ | ⟨hne, _⟩
              · exact Or.inl (Or.inr ⟨rfl, tu, htu, htub⟩)
              · exact absurd hs hne
            · exact Or.inr ⟨rfl, s2, hs2c, hcase⟩
    · rw [if_neg hs] at h
      cases hg : db.get s with
      | error e => rw [hg] at h; exact Except.noConfusion h
      | ok us =>
        rw [hg] at h
        simp only [] at h
        by_cases hkk : hasKey d us.name = true
        · rw [if_pos hkk] at h
          obtain ⟨hiso2, hmem2⟩ := ih (depsAppend d us.name tname) d' h (by
            intro k l hl
            rw [depsLookup_append] at hl
            obtain ⟨l0, hl0, _⟩ := Option.map_eq_some'.mp hl
            exact hkeys k l0 hl0) u
          have happ := depsLookup_append d us.name tname u
          refine ⟨by rw [hiso2, happ]; cases depsLookup d u <;> rfl, ?_⟩
          intro l' hl'
          obtain ⟨l2, hl2, hiff2⟩ := hmem2 l' hl'
          rw [happ] at hl2
          obtain ⟨l, hl, hl2eq⟩ := Option.map_eq_some'.mp hl2
          refine ⟨l, hl, fun y => ?_⟩
          rw [hiff2 y]
          have hl2mem : ∀ y2, y2 ∈ l2 ↔ y2 ∈ l ∨ (u = us.name ∧ y2 = tname) := by
            intro y2
            rw [← hl2eq]
            by_cases hu : u = us.name
            · simp [hu]
            · simp [hu]
          rw [hl2mem y]
          unfold beforeHit
          constructor
          · rintro ((hy | ⟨hu, rfl⟩) | ⟨rfl, s2, hs2, hcase⟩)
            · exact Or.inl hy
            · exact Or.inr ⟨rfl, s, List.mem_cons_self s rest,
                Or.inr ⟨hs, us, hg, hu.symm⟩⟩
            · exact Or.inr ⟨rfl, s2, List.mem_cons_of_mem s hs2, hcase⟩
          · rintro (hy | ⟨rfl, s2, hs2, hcase⟩)
            · exact Or.inl (Or.inl hy)
            · rcases List.mem_cons.mp hs2 with rfl | hs2c
              · rcases hcase with ⟨hstar, _⟩ | ⟨_, us2, hus2, hus2n⟩
                · exact absurd hstar hs
                · have : us2 = us := Except.ok.inj (hus2.symm.trans hg)
                  exact Or.inl (Or.inr ⟨by rw [← hus2n, this], rfl⟩)
              · exact Or.inr ⟨rfl, s2, hs2c, hcase⟩
        · rw [if_neg hkk] at h
          obtain ⟨hiso2, hmem2⟩ := ih d d' h hkeys u
          refine ⟨hiso2, ?_⟩
          intro l' hl'
          obtain ⟨l, hl, hiff2⟩ := hmem2 l' hl'
          refine ⟨l, hl, fun y => ?_⟩
          rw [hiff2 y]
          unfold beforeHit
          constructor
          · rintro (hy | ⟨rfl, s2, hs2, hcase⟩)
            · exact Or.inl hy
            · exact Or.inr ⟨rfl, s2, List.mem_cons_of_mem s hs2, hcase⟩
          · rintro (hy | ⟨rfl, s2, hs2, hcase⟩)
            · exact Or.inl hy
            · rcases List.mem_cons.mp hs2 with rfl | hs2c
              · rcases hcase with ⟨hstar, _⟩ | ⟨_, us2, hus2, hus2n⟩
                · exact absurd hstar hs
                · exfalso
                  have : us2 = us := Except.ok.inj (hus2.symm.trans hg)
                  apply hkk
                  apply (hasKey_iff_lookup d us.name).mpr
                  rw [← this, hus2n]
                  exact ⟨l, hl⟩
              · exact Or.inr ⟨rfl, s2, hs2c, hcase⟩

theorem beforeGo_post (db : TaskDB) :
    ∀ (xs : List String) (d d' : Deps), beforeGo db xs d = .ok d' →
      (∀ k l, depsLookup d k = some l → ∃ t, db.get k = .ok t ∧ t.name = k) →
      ∀ u, ((depsLookup d' u).isSome = (depsLookup d u).isSome)
        ∧ ∀ l', depsLookup d' u = some l' → ∃ l, depsLookup d u = some l ∧
            ∀ y, (y ∈ l' ↔ y ∈ l ∨ beforeContrib db xs u y) := by
  intro xs
  induction xs with
  | nil =>
    intro d d' h _ u
    unfold beforeGo at h
    cases Except.ok.inj h
    exact ⟨rfl, fun l' hl' => ⟨l', hl', fun y => by simp [beforeContrib]⟩⟩
  | cons x rest ih =>
    intro d d' h hkeys u
    unfold beforeGo at h
    cases hg : db.get x with
    | error e => rw [hg] at h; exact Except.noConfusion h
    | ok tx =>
      rw [hg] at h
      simp only [] at h
      cases hb : beforeEntryGo db tx.name tx.before d with
      | error e => rw [hb] at h; exact Except.noConfusion h
      | ok d2 =>
        rw [hb] at h
        simp only [] at h
        have hstep := beforeEntryGo_post db tx.name tx.before d d2 hb hkeys
        have hkeys2 : ∀ k l, depsLookup d2 k = some l →
            ∃ t, db.get k = .ok t ∧ t.name = k := by
          intro k l hl
          have hiso := (hstep k).1
          rw [hl] at hiso
          cases hlk : depsLookup d k with
          | none => rw [hlk] at hiso; exact absurd hiso.symm (by simp)
          | some lk => exact hkeys k lk hlk
        obtain ⟨hiso2, hmem2⟩ := ih d2 d' h hkeys2 u
        obtain ⟨hiso1, hmem1⟩ := hstep u
        refine ⟨by rw [hiso2, hiso1], ?_⟩
        intro l' hl'
        obtain ⟨l2, hl2, hiff2⟩ := hmem2 l' hl'
        obtain ⟨l, hl, hiff1⟩ := hmem1 l2 hl2
        refine ⟨l, hl, fun y => ?_⟩
        rw [hiff2 y, hiff1 y]
        unfold beforeContrib
        constructor
        · rintro ((hy | ⟨rfl, hit⟩) | ⟨x2, hx2, tx2, htx2, rfl, hit2⟩)
          · exact Or.inl hy
          · exact Or.inr ⟨x, List.mem_cons_self x rest, tx, hg, rfl, hit⟩
          · exact Or.inr ⟨x2, List.mem_cons_of_mem x hx2, tx2, htx2, rfl, hit2⟩
        · rintro (hy | ⟨x2, hx2, tx2, htx2, rfl, hit2⟩)
          · exact Or.inl (Or.inl hy)
          · rcases List.mem_cons.mp hx2 with rfl | hx2c
            · have : tx2 = tx := Except.ok.inj (htx2.symm.trans hg)
              subst this
              exact Or.inl (Or.inr ⟨rfl, hit2⟩)
            · exact Or.inr ⟨x2, hx2c, tx2, htx2, rfl, hit2⟩

theorem contains_iff {l : List String} {a : String} : l.contains a = true ↔ a ∈ l :=
  List.elem_iff

theorem specResolveName_ok {db : TaskDB} {a : String} {ta : Task}
    (h : db.get a = .ok ta) : specResolveName db a = ta.name := by
  unfold specResolveName
  rw [h]

theorem afterGo_resolves (db : TaskDB) (S : List String) :
    ∀ pending acc d, afterGo db S pending acc = .ok d →
      ∀ x ∈ pending, ∃ t, db.get x = .ok t ∧
        (t.after.contains "*" = false → ∀ a ∈ t.after, ∃ ta, db.get a = .ok ta) := by
  intro pending
  induction pending with
  | nil => intro acc d _ x hx; simp at hx
  | cons x0 rest ih =>
    intro acc d h x hx
    unfold afterGo at h
    cases hg : db.get x0 with
    | error e => rw [hg] at h; exact Except.noConfusion h
    | ok task =>
      rw [hg] at h
      simp only [] at h
      by_cases hstar : task.after.contains "*" = true
      · rw [if_pos hstar] at h
        cases hm : mapE (fun x2 => (db.get x2).map Task.name)
            (S.filter (fun x2 => x2 ≠ task.name)) with
        | error e => rw [hm] at h; exact Except.noConfusion h
        | ok v =>
          rw [hm] at h
          simp only [] at h
          rcases List.mem_cons.mp hx with rfl | hx2
          · exact ⟨task, hg, fun hfalse => absurd hstar (by rw [hfalse]; simp)⟩
          · exact ih _ _ h x hx2
      · rw [if_neg hstar] at h
        cases hm : mapE (fun x2 => (db.get x2).map Task.name) task.after with
        | error e => rw [hm] at h; exact Except.noConfusion h
        | ok ats =>
          rw [hm] at h
          simp only [] at h
          rcases List.mem_cons.mp hx with rfl | hx2
          · refine ⟨task, hg, fun _ a ha => ?_⟩
            obtain ⟨ya, hya⟩ := mapE_ok_forall hm a ha
            obtain ⟨ta, hta, _⟩ := exceptMap_ok.mp hya
            exact ⟨ta, hta⟩
          · exact ih _ _ h x hx2

theorem beforeEntryGo_resolves (db : TaskDB) (tname : String) :
    ∀ entries d d2, beforeEntryGo db tname entries d = .ok d2 →
      ∀ s ∈ entries, s ≠ "*" → ∃ us, db.get s = .ok us := by
  intro entries
  induction entries with
  | nil => intro d d2 _ s hs; simp at hs
  | cons s0 rest ih =>
    intro d d2 h s hs hsne
    unfold beforeEntryGo at h
    by_cases hs0 : s0 = "*"
    · rw [if_pos hs0] at h
      cases ha : deps_add_all db d tname with
      | error e => rw [ha] at h; exact Except.noConfusion h
      | ok dmid =>
        rw [ha] at h
        simp only [] at h
        rcases List.mem_cons.mp hs with rfl | hs2
        · exact absurd hs0 hsne
        · exact ih _ _ h s hs2 hsne
    · rw [if_neg hs0] at h
      cases hg : db.get s0 with
      | error e => rw [hg] at h; exact Except.noConfusion h
      | ok us =>
        rw [hg] at h
        simp only [] at h
        rcases List.mem_cons.mp hs with rfl | hs2
        · exact ⟨us, hg⟩
        · exact ih _ _ h s hs2 hsne

theorem beforeGo_resolves (db : TaskDB) :
    ∀ xs d d2, beforeGo db xs d = .ok d2 →
      ∀ x ∈ xs, ∃ tx, db.get x = .ok tx
        ∧ ∀ s ∈ tx.before, s ≠ "*" → ∃ us, db.get s = .ok us := by
  intro xs
  induction xs with
  | nil => intro d d2 _ x hx; simp at hx
  | cons x0 rest ih =>
    intro d d2 h x hx
    unfold beforeGo at h
    cases hg : db.get x0 with
    | error e => rw [hg] at h; exact Except.noConfusion h
    | ok tx0 =>
      rw [hg] at h
      simp only [] at h
      cases hb : beforeEntryGo db tx0.name tx0.before d with
      | error e => rw [hb] at h; exact Except.noConfusion h
      | ok dmid =>
        rw [hb] at h
        simp only [] at h
        rcases List.mem_cons.mp hx with rfl | hx2
        · exact ⟨tx0, hg, beforeEntryGo_resolves db tx0.name tx0.before d dmid hb⟩
        · exact ih _ _ h x hx2

/-- **C5.** For a solved set `S` (canonical resolvable names, no
duplicates), the predecessor map built by `get_deps` has exactly the members
of `S` as keys, and each key's predecessor list agrees, as a set, with the
reference definition `specIsPredecessor` stated from the specification's
`after`/`before` rules (including the `"*"` fan-outs and the exclusion
rule). -/
theorem get_deps_spec (db : TaskDB) (S : List String) (D : Deps)
    (hnd : S.Nodup)
    (hcanonS : ∀ x ∈ S, ∃ t, db.get x = .ok t ∧ t.name = x)
    (hrun : get_deps db S = .ok D) :
    (∀ u, (∃ l, depsLookup D u = some l) ↔ u ∈ S)
    ∧ (∀ u l, depsLookup D u = some l →
        ∀ y, (y ∈ l ↔ specIsPredecessor db S u y = true)) := by
  unfold get_deps at hrun
  cases ha : afterGo db S S [] with
  | error e => rw [ha] at hrun; exact Except.noConfusion hrun
  | ok d0 =>
    rw [ha] at hrun
    simp only [] at hrun
    obtain ⟨hA1, hA2⟩ := afterGo_post db S hcanonS S [] d0 ha hnd hcanonS
    have hkeys0 : ∀ u, (∃ l, depsLookup d0 u = some l) ↔ u ∈ S := by
      intro u
      constructor
      · rintro ⟨l, hl⟩
        by_contra huS
        rw [hA2 u huS] at hl
        exact Option.noConfusion hl
      · intro huS
        obtain ⟨l, hl, _⟩ := hA1 u huS
        exact ⟨l, hl⟩
    have hkeyscanon : ∀ k l, depsLookup d0 k = some l →
        ∃ t, db.get k = .ok t ∧ t.name = k := by
      intro k l hl
      exact hcanonS k ((hkeys0 k).mp ⟨l, hl⟩)
    have hB := beforeGo_post db S d0 D hrun hkeyscanon
    have hRafter := afterGo_resolves db S S [] d0 ha
    have hRbefore := beforeGo_resolves db S d0 D hrun
    constructor
    · intro u
      rw [← hkeys0 u]
      constructor
      · rintro ⟨l, hl⟩
        have hiso := (hB u).1
        rw [hl] at hiso
        cases hl0 : depsLookup d0 u with
        | none => rw [hl0] at hiso; exact absurd hiso.symm (by simp)
        | some l0 => exact ⟨l0, rfl⟩
      · rintro ⟨l0, hl0⟩
        have hiso := (hB u).1
        rw [hl0] at hiso
        cases hl : depsLookup D u with
        | none => rw [hl] at hiso; exact absurd hiso (by simp)
        | some l => exact ⟨l, rfl⟩
    · intro u l hl y
      have huS : u ∈ S := by
        apply (hkeys0 u).mp
        have hiso := (hB u).1
        rw [hl] at hiso
        cases hl0 : depsLookup d0 u with
        | none => rw [hl0] at hiso; exact absurd hiso.symm (by simp)
        | some l0 => exact ⟨l0, rfl⟩
      obtain ⟨l0, hl0, hiffB⟩ := (hB u).2 l hl
      obtain ⟨l0b, hl0b, hiffA⟩ := hA1 u huS
      have hl00 : l0b = l0 := Option.some.inj (hl0b.symm.trans hl0)
      subst hl00
      obtain ⟨tu, hgu, htun⟩ := hcanonS u huS
      have hmem : y ∈ l ↔ afterMem db S u y ∨ beforeContrib db S u y := by
        rw [hiffB y, hiffA y]
      rw [hmem]
      -- now relate to the reference definition
      unfold specIsPredecessor
      rw [hgu]
      simp only []
      rw [Bool.or_eq_true]
      constructor
      · rintro (hafter | hbefore)
        · left
          obtain ⟨tu2, hgu2, hcase⟩ := hafter
          have : tu2 = tu := Except.ok.inj (hgu2.symm.trans hgu)
          subst this
          rcases hcase with ⟨hstar, hyS, hyne⟩ | ⟨hstar, hyS, a, ha, ta, hta, htan⟩
          · rw [if_pos hstar, Bool.and_eq_true]
            exact ⟨contains_iff.mpr hyS, decide_eq_true hyne⟩
          · rw [if_neg (by rw [hstar]; simp)]
            rw [Bool.and_eq_true]
            refine ⟨contains_iff.mpr hyS, ?_⟩
            apply List.any_eq_true.mpr
            refine ⟨a, ha, ?_⟩
            simp [specResolveName_ok hta, htan]
        · right
          obtain ⟨x, hxS, tx, hgx, hytx, hit⟩ := hbefore
          apply List.any_eq_true.mpr
          refine ⟨x, hxS, ?_⟩
          rw [hgx]
          simp only []
          rw [Bool.and_eq_true]
          refine ⟨decide_eq_true hytx, ?_⟩
          rw [Bool.or_eq_true]
          obtain ⟨s, hs, hcase⟩ := hit
          rcases hcase with ⟨rfl, tu2, hgu2, htub⟩ | ⟨hsne, us, hus, husn⟩
          · left
            have : tu2 = tu := Except.ok.inj (hgu2.symm.trans hgu)
            subst this
            rw [Bool.and_eq_true]
            exact ⟨contains_iff.mpr hs, by rw [htub]; rfl⟩
          · right
            apply List.any_eq_true.mpr
            refine ⟨s, hs, ?_⟩
            rw [Bool.and_eq_true]
            exact ⟨decide_eq_true hsne, by simp [specResolveName_ok hus, husn]⟩
      · rintro (hafter | hbefore)
        · left
          by_cases hstar : tu.after.contains "*" = true
          · rw [if_pos hstar] at hafter
            rw [Bool.and_eq_true] at hafter
            exact ⟨tu, hgu, Or.inl ⟨hstar, contains_iff.mp hafter.1,
              of_decide_eq_true hafter.2⟩⟩
          · rw [if_neg hstar] at hafter
            rw [Bool.and_eq_true] at hafter
            obtain ⟨a, ha, hres⟩ := List.any_eq_true.mp hafter.2
            have hres2 : specResolveName db a = y := of_decide_eq_true hres
            obtain ⟨tu3, hgu3, hra⟩ := hRafter u huS
            have h33 : tu3 = tu := Except.ok.inj (hgu3.symm.trans hgu)
            rw [h33] at hra
            obtain ⟨ta, hta⟩ := hra (by simpa using hstar) a ha
            refine ⟨tu, hgu, Or.inr ⟨by simpa using hstar, contains_iff.mp hafter.1,
              a, ha, ta, hta, ?_⟩⟩
            rw [← hres2, specResolveName_ok hta]
        · right
          obtain ⟨x, hxS, hx⟩ := List.any_eq_true.mp hbefore
          obtain ⟨tx, hgx, htxn⟩ := hcanonS x hxS
          rw [hgx] at hx
          simp only [] at hx
          rw [Bool.and_eq_true] at hx
          have hytx : y = tx.name := of_decide_eq_true hx.1
          rw [Bool.or_eq_true] at hx
          refine ⟨x, hxS, tx, hgx, hytx, ?_⟩
          rcases hx.2 with hstarcase | helse
          · rw [Bool.and_eq_true] at hstarcase
            have hsmem : "*" ∈ tx.before := contains_iff.mp hstarcase.1
            refine ⟨"*", hsmem, Or.inl ⟨rfl, tu, hgu, ?_⟩⟩
            have := hstarcase.2
            cases htub : tu.before.contains "*" with
            | false => rfl
            | true => rw [htub] at this; exact Bool.noConfusion this
          · obtain ⟨s, hs, hsprop⟩ := List.any_eq_true.mp helse
            rw [Bool.and_eq_true] at hsprop
            have hsne : s ≠ "*" := of_decide_eq_true hsprop.1
            obtain ⟨tx2, hgx2, hrb⟩ := hRbefore x hxS
            have h22 : tx2 = tx := Except.ok.inj (hgx2.symm.trans hgx)
            rw [h22] at hrb
            obtain ⟨us, hus⟩ := hrb s hs hsne
            refine ⟨s, hs, Or.inr ⟨hsne, us, hus, ?_⟩⟩
            have := of_decide_eq_true hsprop.2
            rw [← this, specResolveName_ok hus]

/-- Witness for C5 at the spec's S2 scenario (`init` before `*`, `fin` after
`*`): applying the characterisation to the concretely built map shows `A` is
a predecessor of `fin` in the reference relation. -/
theorem get_deps_spec_witness :
    specIsPredecessor
      ((((TaskDB.empty.add { Task.mk0 "init" with before := ["*"] }).add
        (Task.mk0 "A")).add (Task.mk0 "B")).add { Task.mk0 "fin" with after := ["*"] })
      ["init", "A", "B", "fin"] "fin" "A" = true := by
  have hcanon : ∀ x ∈ (["init", "A", "B", "fin"] : List String),
      ∃ t, ((((TaskDB.empty.add { Task.mk0 "init" with before := ["*"] }).add
        (Task.mk0 "A")).add (Task.mk0 "B")).add
          { Task.mk0 "fin" with after := ["*"] }).get x = .ok t ∧ t.name = x := by
    intro x hx
    simp at hx
    rcases hx with rfl | rfl | rfl | rfl
    · exact ⟨{ Task.mk0 "init" with before := ["*"] }, rfl, rfl⟩
    · exact ⟨Task.mk0 "A", rfl, rfl⟩
    · exact ⟨Task.mk0 "B", rfl, rfl⟩
    · exact ⟨{ Task.mk0 "fin" with after := ["*"] }, rfl, rfl⟩
  have h := (get_deps_spec
    ((((TaskDB.empty.add { Task.mk0 "init" with before := ["*"] }).add
      (Task.mk0 "A")).add (Task.mk0 "B")).add { Task.mk0 "fin" with after := ["*"] })
    ["init", "A", "B", "fin"]
    [("init", []), ("A", ["init"]), ("B", ["init"]), ("fin", ["init", "A", "B", "init"])]
    (by decide) hcanon (by rfl)).2 "fin" ["init", "A", "B", "init"] (by rfl) "A"
  exact h.mp (by decide)

/-! ## C1: event ordering of the executor -/

theorem evIdx_mem_take {e : Ev} :
    ∀ (l : List Ev) (i : Nat), e ∈ l.take i → ∃ j, evIdx e l = some j ∧ j < i := by
  intro l
  induction l with
  | nil => intro i h; simp at h
  | cons x rest ih =>
    intro i h
    cases i with
    | zero => simp at h
    | succ i =>
      rw [List.take_succ_cons] at h
      by_cases hx : x = e
      · exact ⟨0, by simp [evIdx, hx], Nat.succ_pos i⟩
      · have hmem : e ∈ rest.take i := by
          rcases List.mem_cons.mp h with h1 | h1
          · exact absurd h1.symm hx
          · exact h1
        obtain ⟨j, hj, hlt⟩ := ih i hmem
        exact ⟨j + 1, by simp [evIdx, hx, hj], Nat.succ_lt_succ hlt⟩

/-- In a valid trace continuation, when `s` starts, every predecessor `p` of
`s` was already marked done: either in the incoming `finished` accumulator or
by a finish event strictly before the start. -/
theorem okTraceFrom_start_pred_finish (deps : Deps) (p s : String)
    (hp : p ∈ predsOf deps s) :
    ∀ (tr : List Ev) (started finished : List String),
      okTraceFrom deps tr started finished = true →
      ∀ i, evIdx (Ev.start s) tr = some i →
      p ∈ finished ∨ Ev.finish p ∈ tr.take i := by
  intro tr
  induction tr with
  | nil => intro st fin hok i hi; simp [evIdx] at hi
  | cons x rest ih =>
    intro st fin hok i hi
    cases x with
    | start a =>
      simp only [okTraceFrom, Bool.and_eq_true] at hok
      obtain ⟨⟨⟨hkey, hnotst⟩, hpreds⟩, hrest⟩ := hok
      by_cases ha : Ev.start a = Ev.start s
      · have has : a = s := by injection ha
        subst has
        left
        exact contains_iff.mp (List.all_eq_true.mp hpreds p hp)
      · simp only [evIdx, if_neg ha] at hi
        obtain ⟨i2, hi2, hsum⟩ := Option.map_eq_some'.mp hi
        subst hsum
        rcases ih (a :: st) fin hrest i2 hi2 with h1 | h1
        · exact Or.inl h1
        · right
          rw [List.take_succ_cons]
          exact List.mem_cons_of_mem _ h1
    | finish a =>
      simp only [okTraceFrom, Bool.and_eq_true] at hok
      obtain ⟨⟨hst, hnfin⟩, hrest⟩ := hok
      have hne : ¬ (Ev.finish a = Ev.start s) := by simp
      simp only [evIdx, if_neg hne] at hi
      obtain ⟨i2, hi2, hsum⟩ := Option.map_eq_some'.mp hi
      subst hsum
      rcases ih st (a :: fin) hrest i2 hi2 with h1 | h1
      · rcases List.mem_cons.mp h1 with h2 | h2
        · right
          rw [List.take_succ_cons, h2]
          exact List.mem_cons_self _ _
        · exact Or.inl h2
      · right
        rw [List.take_succ_cons]
        exact List.mem_cons_of_mem _ h1

/-- **C1 (amended).** For every valid run of the executor and every edge
`p → s` of the dependency map it is given, the finish event of `p` occurs
strictly before the start event of `s`; hence, reading the wall clock at each
event with a clock that is monotone in event order, `s`'s recorded starttime
is at least (`≥`, not necessarily strictly greater than) `p`'s recorded
endtime. -/
theorem executor_pred_end_before_start (deps : Deps) (tr : List Ev)
    (p s : String) (clock : Nat → Nat)
    (hmono : ∀ i j, i ≤ j → clock i ≤ clock j)
    (hok : okTrace deps tr = true)
    (hp : p ∈ predsOf deps s)
    (i : Nat) (hs : startIdx tr s = some i) :
    ∃ j, endIdx tr p = some j ∧ j < i ∧ clock j ≤ clock i := by
  rcases okTraceFrom_start_pred_finish deps p s hp tr [] [] hok i hs with h | h
  · simp at h
  · obtain ⟨j, hj, hlt⟩ := evIdx_mem_take tr i h
    exact ⟨j, hj, hlt, hmono j i (Nat.le_of_lt hlt)⟩

/-- **C1** counterexample to the claimed strict inequality: with a constant
clock — `time.time()` may return the same value at two calls — a
predecessor's recorded endtime equals its successor's recorded starttime, so
`starttime > endtime` fails even on a correctly ordered run. -/
theorem executor_starttime_not_strictly_greater :
    ¬ ∀ (deps : Deps) (tr : List Ev) (p s : String) (clock : Nat → Nat),
        (∀ i j, i ≤ j → clock i ≤ clock j) →
        okTrace deps tr = true →
        p ∈ predsOf deps s →
        ∀ i j, startIdx tr s = some i → endIdx tr p = some j →
          clock j < clock i := by
  intro h
  have h2 := h [("p", []), ("s", ["p"])]
      [Ev.start "p", Ev.finish "p", Ev.start "s"] "p" "s" (fun _ => 0)
      (fun _ _ _ => Nat.le_refl 0) (by rfl) (by decide) 2 1 (by rfl) (by rfl)
  exact absurd h2 (by decide)

/-- Witness for C1 on a two-node chain `p → s` with the identity clock. -/
theorem executor_pred_end_before_start_witness :
    ∃ j, endIdx [Ev.start "p", Ev.finish "p", Ev.start "s"] "p" = some j
      ∧ j < 2 ∧ j ≤ 2 := by
  exact executor_pred_end_before_start [("p", []), ("s", ["p"])]
    [Ev.start "p", Ev.finish "p", Ev.start "s"] "p" "s" (fun n => n)
    (fun _ _ h => h) (by rfl) (by decide) 2 (by rfl)

/-! ## C2: failure policy of the executor -/

/-- The names started along a trace, in order. -/
def startsOf : List Ev → List String
  | [] => []
  | .start s :: rest => s :: startsOf rest
  | .finish _ :: rest => startsOf rest

theorem contains_iff_ev {l : List Ev} {e : Ev} : l.contains e = true ↔ e ∈ l :=
  List.elem_iff

theorem stderrOf_eq (fails : String → Bool) (emsg : String → String) :
    ∀ tr : List Ev, stderrOf fails emsg tr =
      ((finishes tr).filter fails).map (fun s => s ++ ": " ++ emsg s) := by
  intro tr
  induction tr with
  | nil => rfl
  | cons x rest ih =>
    cases x with
    | start a => simpa [stderrOf, finishes] using ih
    | finish a =>
      by_cases hf : fails a = true
      · simp [stderrOf, finishes, hf, ih]
      · simp [stderrOf, finishes, hf, ih]

theorem exitcodeOf_eq (fails : String → Bool) :
    ∀ (tr : List Ev) (c : Nat), exitcodeOf fails tr c =
      if (finishes tr).any fails then 1 else c := by
  intro tr
  induction tr with
  | nil => intro c; rfl
  | cons x rest ih =>
    intro c
    cases x with
    | start a => simpa [exitcodeOf, finishes] using ih c
    | finish a =>
      by_cases hf : fails a = true
      · simp [exitcodeOf, finishes, hf, ih]
      · simp [exitcodeOf, finishes, hf, ih]

theorem finish_mem_iff {k : String} :
    ∀ {tr : List Ev}, Ev.finish k ∈ tr ↔ k ∈ finishes tr := by
  intro tr
  induction tr with
  | nil => simp [finishes]
  | cons x rest ih =>
    cases x with
    | start a => simp [finishes, ih]
    | finish a => simp [finishes, ih]

theorem start_mem_iff {k : String} :
    ∀ {tr : List Ev}, Ev.start k ∈ tr ↔ k ∈ startsOf tr := by
  intro tr
  induction tr with
  | nil => simp [startsOf]
  | cons x rest ih =>
    cases x with
    | start a => simp [startsOf, ih]
    | finish a => simp [startsOf, ih]

theorem okTraceFrom_starts_key (deps : Deps) :
    ∀ (tr : List Ev) (st fin : List String),
      okTraceFrom deps tr st fin = true →
      ∀ x ∈ startsOf tr, hasKey deps x = true := by
  intro tr
  induction tr with
  | nil => intro st fin _ x hx; simp [startsOf] at hx
  | cons e rest ih =>
    intro st fin hok x hx
    cases e with
    | start a =>
      simp only [okTraceFrom, Bool.and_eq_true] at hok
      obtain ⟨⟨⟨hkey, _⟩, _⟩, hrest⟩ := hok
      rcases List.mem_cons.mp hx with rfl | hx2
      · exact hkey
      · exact ih (a :: st) fin hrest x hx2
    | finish a =>
      simp only [okTraceFrom, Bool.and_eq_true] at hok
      exact ih st (a :: fin) hok.2 x hx

theorem okTraceFrom_fin_sub_starts (deps : Deps) :
    ∀ (tr : List Ev) (st fin : List String),
      okTraceFrom deps tr st fin = true →
      ∀ x ∈ finishes tr, x ∈ startsOf tr ∨ x ∈ st := by
  intro tr
  induction tr with
  | nil => intro st fin _ x hx; simp [finishes] at hx
  | cons e rest ih =>
    intro st fin hok x hx
    cases e with
    | start a =>
      simp only [okTraceFrom, Bool.and_eq_true] at hok
      rcases ih (a :: st) fin hok.2 x hx with h1 | h1
      · exact Or.inl (List.mem_cons_of_mem _ h1)
      · rcases List.mem_cons.mp h1 with rfl | h2
        · exact Or.inl (List.mem_cons_self _ _)
        · exact Or.inr h2
    | finish a =>
      simp only [okTraceFrom, Bool.and_eq_true] at hok
      obtain ⟨⟨hst, _⟩, hrest⟩ := hok
      rcases List.mem_cons.mp hx with rfl | hx2
      · exact Or.inr (contains_iff.mp hst)
      · exact ih st (a :: fin) hrest x hx2

theorem okTraceFrom_finishes_nodup (deps : Deps) :
    ∀ (tr : List Ev) (st fin : List String),
      okTraceFrom deps tr st fin = true → fin.Nodup →
      (finishes tr ++ fin).Nodup := by
  intro tr
  induction tr with
  | nil => intro st fin _ hnd; simpa [finishes] using hnd
  | cons e rest ih =>
    intro st fin hok hnd
    cases e with
    | start a =>
      simp only [okTraceFrom, Bool.and_eq_true] at hok
      simpa [finishes] using ih (a :: st) fin hok.2 hnd
    | finish a =>
      simp only [okTraceFrom, Bool.and_eq_true] at hok
      obtain ⟨⟨hst, hnf⟩, hrest⟩ := hok
      have hna : a ∉ fin := by
        intro hmem
        rw [contains_iff.mpr hmem] at hnf
        exact Bool.noConfusion hnf
      have h2 := ih st (a :: fin) hrest (List.nodup_cons.mpr ⟨hna, hnd⟩)
      have hperm : List.Perm (finishes rest ++ a :: fin)
          (a :: (finishes rest ++ fin)) := List.perm_middle
      simpa [finishes] using hperm.nodup h2

theorem okTraceFrom_snoc_finish (deps : Deps) (x : String) :
    ∀ (tr : List Ev) (st fin : List String),
      okTraceFrom deps tr st fin = true →
      (x ∈ startsOf tr ∨ x ∈ st) →
      ¬(x ∈ finishes tr ∨ x ∈ fin) →
      okTraceFrom deps (tr ++ [Ev.finish x]) st fin = true := by
  intro tr
  induction tr with
  | nil =>
    intro st fin _ hs hf
    have hs2 : x ∈ st := by
      rcases hs with h | h
      · simp [startsOf] at h
      · exact h
    have hf2 : x ∉ fin := fun h => hf (Or.inr h)
    simp only [List.nil_append, okTraceFrom, Bool.and_eq_true]
    refine ⟨⟨contains_iff.mpr hs2, ?_⟩, trivial⟩
    cases hc : fin.contains x with
    | false => rfl
    | true => exact absurd (contains_iff.mp hc) hf2
  | cons e rest ih =>
    intro st fin hok hs hf
    cases e with
    | start a =>
      simp only [okTraceFrom, Bool.and_eq_true] at hok ⊢
      obtain ⟨hhead, hrest⟩ := hok
      refine ⟨hhead, ih (a :: st) fin hrest ?_ ?_⟩
      · rcases hs with h | h
        · rcases List.mem_cons.mp h with rfl | h2
          · exact Or.inr (List.mem_cons_self _ _)
          · exact Or.inl h2
        · exact Or.inr (List.mem_cons_of_mem _ h)
      · intro hcon
        rcases hcon with h | h
        · exact hf (Or.inl h)
        · exact hf (Or.inr h)
    | finish a =>
      simp only [okTraceFrom, Bool.and_eq_true] at hok ⊢
      obtain ⟨hhead, hrest⟩ := hok
      refine ⟨hhead, ih st (a :: fin) hrest ?_ ?_⟩
      · exact hs
      · intro hcon
        rcases hcon with h | h
        · exact hf (Or.inl (List.mem_cons_of_mem _ h))
        · rcases List.mem_cons.mp h with rfl | h2
          · exact hf (Or.inl (List.mem_cons_self _ _))
          · exact hf (Or.inr h2)

theorem okTraceFrom_snoc_start (deps : Deps) (k : String) :
    ∀ (tr : List Ev) (st fin : List String),
      okTraceFrom deps tr st fin = true →
      hasKey deps k = true →
      ¬(k ∈ startsOf tr ∨ k ∈ st) →
      (∀ q ∈ predsOf deps k, q ∈ finishes tr ∨ q ∈ fin) →
      okTraceFrom deps (tr ++ [Ev.start k]) st fin = true := by
  intro tr
  induction tr with
  | nil =>
    intro st fin _ hkey hns hq
    simp only [List.nil_append, okTraceFrom, Bool.and_eq_true]
    refine ⟨⟨⟨hkey, ?_⟩, ?_⟩, trivial⟩
    · cases hc : st.contains k with
      | false => rfl
      | true => exact absurd (contains_iff.mp hc) (fun h => hns (Or.inr h))
    · refine List.all_eq_true.mpr fun q hqm => ?_
      rcases hq q hqm with h | h
      · simp [finishes] at h
      · exact contains_iff.mpr h
  | cons e rest ih =>
    intro st fin hok hkey hns hq
    cases e with
    | start a =>
      simp only [okTraceFrom, Bool.and_eq_true] at hok ⊢
      obtain ⟨hhead, hrest⟩ := hok
      refine ⟨hhead, ih (a :: st) fin hrest hkey ?_ ?_⟩
      · intro hcon
        rcases hcon with h | h
        · exact hns (Or.inl (List.mem_cons_of_mem _ h))
        · rcases List.mem_cons.mp h with rfl | h2
          · exact hns (Or.inl (List.mem_cons_self _ _))
          · exact hns (Or.inr h2)
      · intro q hqm
        rcases hq q hqm with h | h
        · exact Or.inl h
        · exact Or.inr h
    | finish a =>
      simp only [okTraceFrom, Bool.and_eq_true] at hok ⊢
      obtain ⟨hhead, hrest⟩ := hok
      refine ⟨hhead, ih st (a :: fin) hrest hkey ?_ ?_⟩
      · intro hcon
        rcases hcon with h | h
        · exact hns (Or.inl h)
        · exact hns (Or.inr h)
      · intro q hqm
        rcases hq q hqm with h | h
        · rcases List.mem_cons.mp h with rfl | h2
          · exact Or.inr (List.mem_cons_self _ _)
          · exact Or.inl h2
        · exact Or.inr (List.mem_cons_of_mem _ h)

theorem hasKey_iff_mem_keys {d : Deps} {k : String} :
    hasKey d k = true ↔ k ∈ d.map Prod.fst := by
  constructor
  · intro h
    obtain ⟨p, hp, he⟩ := List.any_eq_true.mp h
    have : p.1 = k := by simpa using he
    exact this ▸ List.mem_map.mpr ⟨p, hp, rfl⟩
  · intro h
    obtain ⟨p, hp, he⟩ := List.mem_map.mp h
    exact List.any_eq_true.mpr ⟨p, hp, by simp [he]⟩

theorem pickReady_mem {deps : Deps} {done remaining : List String} {k : String}
    (h : pickReady deps done remaining = some k) :
    k ∈ remaining ∧ (predsOf deps k).all done.contains = true := by
  exact ⟨List.mem_of_find?_eq_some h, by simpa using List.find?_some h⟩

theorem topoGo_mem (deps : Deps) :
    ∀ (fuel : Nat) (remaining done ord : List String),
      topoGo deps fuel remaining done = some ord →
      (∀ x ∈ remaining, x ∈ ord) ∧ (∀ x ∈ ord, x ∈ remaining) := by
  intro fuel
  induction fuel with
  | zero =>
    intro remaining done ord h
    simp only [topoGo] at h
    by_cases he : remaining.isEmpty
    · rw [if_pos he] at h
      obtain rfl : ([] : List String) = ord := Option.some.inj h
      simp [List.isEmpty_iff.mp he]
    · rw [if_neg he] at h
      exact Option.noConfusion h
  | succ fuel ih =>
    intro remaining done ord h
    simp only [topoGo] at h
    cases hp : pickReady deps done remaining with
    | none =>
      rw [hp] at h
      by_cases he : remaining.isEmpty
      · rw [if_pos he] at h
        obtain rfl : ([] : List String) = ord := Option.some.inj h
        simp [List.isEmpty_iff.mp he]
      · rw [if_neg he] at h
        exact Option.noConfusion h
    | some k =>
      rw [hp] at h
      simp only [] at h
      obtain ⟨ord2, h2, hcons⟩ := Option.map_eq_some'.mp h
      subst hcons
      obtain ⟨hfwd, hbwd⟩ := ih (remaining.erase k) (k :: done) ord2 h2
      obtain ⟨hkmem, _⟩ := pickReady_mem hp
      constructor
      · intro x hx
        by_cases hxk : x = k
        · exact hxk ▸ List.mem_cons_self _ _
        · exact List.mem_cons_of_mem _ (hfwd x ((List.mem_erase_of_ne hxk).mpr hx))
      · intro x hx
        rcases List.mem_cons.mp hx with rfl | hx2
        · exact hkmem
        · exact List.mem_of_mem_erase (hbwd x hx2)

theorem topoGo_sorted (deps : Deps) :
    ∀ (fuel : Nat) (remaining done ord : List String),
      topoGo deps fuel remaining done = some ord →
      ∀ n k, ord[n]? = some k →
        ∀ q ∈ predsOf deps k, q ∈ done ∨ q ∈ ord.take n := by
  intro fuel
  induction fuel with
  | zero =>
    intro remaining done ord h
    simp only [topoGo] at h
    by_cases he : remaining.isEmpty
    · rw [if_pos he] at h
      obtain rfl : ([] : List String) = ord := Option.some.inj h
      intro n k hk
      simp at hk
    · rw [if_neg he] at h
      exact Option.noConfusion h
  | succ fuel ih =>
    intro remaining done ord h
    simp only [topoGo] at h
    cases hp : pickReady deps done remaining with
    | none =>
      rw [hp] at h
      by_cases he : remaining.isEmpty
      · rw [if_pos he] at h
        obtain rfl : ([] : List String) = ord := Option.some.inj h
        intro n k hk
        simp at hk
      · rw [if_neg he] at h
        exact Option.noConfusion h
    | some k0 =>
      rw [hp] at h
      simp only [] at h
      obtain ⟨ord2, h2, hcons⟩ := Option.map_eq_some'.mp h
      subst hcons
      obtain ⟨_, hready⟩ := pickReady_mem hp
      intro n k hk q hq
      cases n with
      | zero =>
        obtain rfl : k0 = k := by simpa using hk
        left
        exact contains_iff.mp (List.all_eq_true.mp hready q hq)
      | succ n =>
        have hk2 : ord2[n]? = some k := by simpa using hk
        rcases ih (remaining.erase k0) (k0 :: done) ord2 h2 n k hk2 q hq with h1 | h1
        · rcases List.mem_cons.mp h1 with rfl | h3
          · right
            rw [List.take_succ_cons]
            exact List.mem_cons_self _ _
          · exact Or.inl h3
        · right
          rw [List.take_succ_cons]
          exact List.mem_cons_of_mem _ h1

theorem mem_of_getElemQ {l : List String} {n : Nat} {a : String}
    (h : l[n]? = some a) : a ∈ l := by
  induction l generalizing n with
  | nil => simp at h
  | cons x rest ih =>
    cases n with
    | zero =>
      have hx : x = a := by simpa using h
      subst hx
      exact List.mem_cons_self _ _
    | succ n => exact List.mem_cons_of_mem _ (ih (by simpa using h))

theorem first_not_mem {fin : List String} :
    ∀ ord : List String, (∃ x ∈ ord, x ∉ fin) →
      ∃ n k, ord[n]? = some k ∧ k ∉ fin ∧ ∀ y ∈ ord.take n, y ∈ fin := by
  intro ord
  induction ord with
  | nil => intro h; simp at h
  | cons x0 rest ih =>
    intro h
    by_cases hx0 : x0 ∈ fin
    · have h2 : ∃ x ∈ rest, x ∉ fin := by
        obtain ⟨x, hx, hnf⟩ := h
        rcases List.mem_cons.mp hx with rfl | hx2
        · exact absurd hx0 hnf
        · exact ⟨x, hx2, hnf⟩
      obtain ⟨n, k, hget, hk, hbefore⟩ := ih h2
      refine ⟨n + 1, k, by simpa using hget, hk, ?_⟩
      intro y hy
      rw [List.take_succ_cons] at hy
      rcases List.mem_cons.mp hy with rfl | hy2
      · exact hx0
      · exact hbefore y hy2
    · exact ⟨0, x0, by simp, hx0, by simp⟩

/-- **C2.** Failure policy of `Modprobe.run` on an acyclic graph: a
completed run prints exactly one `name: error` line per failed task (as a
multiset — thread interleaving permutes the order), its exit code is 1 if
some task failed and 0 otherwise, and every node of the graph was started
and finished — in particular successors of failed tasks executed, since the
executor marks failed tasks done all the same; and a valid run that is not
yet complete is never stuck: some event can always be appended, so a
failure never aborts the run. -/
theorem executor_failure_policy (deps : Deps) (tr : List Ev)
    (fails : String → Bool) (emsg : String → String) (ord : List String)
    (hnd : (deps.map Prod.fst).Nodup)
    (hprep : prepare deps = some ord)
    (hok : okTrace deps tr = true) :
    (completeTrace deps tr = true →
      List.Perm (stderrOf fails emsg tr)
        (((deps.map Prod.fst).filter fails).map (fun s => s ++ ": " ++ emsg s))
      ∧ exitcodeOf fails tr 0 = (if (deps.map Prod.fst).any fails then 1 else 0)
      ∧ ∀ k ∈ deps.map Prod.fst, Ev.start k ∈ tr ∧ Ev.finish k ∈ tr)
    ∧ (completeTrace deps tr = false → ∃ e, okTrace deps (tr ++ [e]) = true) := by
  constructor
  · intro hcomp
    simp only [completeTrace, Bool.and_eq_true] at hcomp
    have hall := hcomp.2
    have hkeys_fin : ∀ k ∈ deps.map Prod.fst, k ∈ finishes tr := by
      intro k hk
      exact finish_mem_iff.mp
        (contains_iff_ev.mp (List.all_eq_true.mp hall k hk))
    have hfin_keys : ∀ k ∈ finishes tr, k ∈ deps.map Prod.fst := by
      intro k hk
      rcases okTraceFrom_fin_sub_starts deps tr [] [] hok k hk with h1 | h1
      · exact hasKey_iff_mem_keys.mp (okTraceFrom_starts_key deps tr [] [] hok k h1)
      · simp at h1
    have hfnd : (finishes tr).Nodup := by
      simpa using okTraceFrom_finishes_nodup deps tr [] [] hok List.nodup_nil
    have hperm : List.Perm (finishes tr) (deps.map Prod.fst) :=
      (List.perm_ext_iff_of_nodup hfnd hnd).mpr
        (fun a => ⟨hfin_keys a, hkeys_fin a⟩)
    refine ⟨?_, ?_, ?_⟩
    · rw [stderrOf_eq]
      exact (hperm.filter fails).map _
    · rw [exitcodeOf_eq]
      have hany : (finishes tr).any fails = (deps.map Prod.fst).any fails := by
        cases ha : (deps.map Prod.fst).any fails with
        | true =>
          obtain ⟨x, hx, hfx⟩ := List.any_eq_true.mp ha
          exact List.any_eq_true.mpr ⟨x, hperm.mem_iff.mpr hx, hfx⟩
        | false =>
          cases hb : (finishes tr).any fails with
          | false => rfl
          | true =>
            obtain ⟨x, hx, hfx⟩ := List.any_eq_true.mp hb
            have : (deps.map Prod.fst).any fails = true :=
              List.any_eq_true.mpr ⟨x, hperm.mem_iff.mp hx, hfx⟩
            rw [this] at ha
            exact ha
        
      rw [hany]
    · intro k hk
      have hfink : k ∈ finishes tr := hkeys_fin k hk
      have hstak : k ∈ startsOf tr := by
        rcases okTraceFrom_fin_sub_starts deps tr [] [] hok k hfink with h1 | h1
        · exact h1
        · simp at h1
      exact ⟨start_mem_iff.mpr hstak, finish_mem_iff.mpr hfink⟩
  · intro hincomp
    simp only [completeTrace, hok, Bool.true_and] at hincomp
    have hnot : ∃ k ∈ deps.map Prod.fst, k ∉ finishes tr := by
      by_contra hcontra
      push_neg at hcontra
      have : (deps.map Prod.fst).all (fun k => tr.contains (Ev.finish k)) = true :=
        List.all_eq_true.mpr fun k hk =>
          contains_iff_ev.mpr (finish_mem_iff.mpr (hcontra k hk))
      rw [this] at hincomp
      exact Bool.noConfusion hincomp
    by_cases hse : ∃ x, x ∈ startsOf tr ∧ x ∉ finishes tr
    · obtain ⟨x, hxs, hxf⟩ := hse
      refine ⟨Ev.finish x, okTraceFrom_snoc_finish deps x tr [] [] hok
        (Or.inl hxs) ?_⟩
      intro h
      rcases h with h | h
      · exact hxf h
      · simp at h
    · push_neg at hse
      obtain ⟨k, hkmem, hkfin⟩ := hnot
      have hkord : k ∈ ord :=
        (topoGo_mem deps deps.length (deps.map Prod.fst) [] ord hprep).1 k hkmem
      obtain ⟨n, k2, hget, hk2fin, hbefore⟩ :=
        first_not_mem ord ⟨k, hkord, hkfin⟩
      have hk2ord : k2 ∈ ord := mem_of_getElemQ hget
      have hk2keys : k2 ∈ deps.map Prod.fst :=
        (topoGo_mem deps deps.length (deps.map Prod.fst) [] ord hprep).2 k2 hk2ord
      refine ⟨Ev.start k2, okTraceFrom_snoc_start deps k2 tr [] [] hok
        (hasKey_iff_mem_keys.mpr hk2keys) ?_ ?_⟩
      · intro h
        rcases h with h | h
        · exact hk2fin (hse k2 h)
        · simp at h
      · intro q hq
        rcases topoGo_sorted deps deps.length (deps.map Prod.fst) [] ord hprep
            n k2 hget q hq with h1 | h1
        · simp at h1
        · exact Or.inl (hbefore q h1)

/-- Witness for C2 on the complete run of the chain `p → s` where `p`
fails. -/
theorem executor_failure_policy_witness :
    List.Perm (stderrOf (fun n => n == "p") (fun _ => "boom")
        [Ev.start "p", Ev.finish "p", Ev.start "s", Ev.finish "s"]) ["p: boom"]
    ∧ exitcodeOf (fun n => n == "p")
        [Ev.start "p", Ev.finish "p", Ev.start "s", Ev.finish "s"] 0 = 1 := by
  have h := (executor_failure_policy [("p", []), ("s", ["p"])]
      [Ev.start "p", Ev.finish "p", Ev.start "s", Ev.finish "s"]
      (fun n => n == "p") (fun _ => "boom") ["p", "s"]
      (by decide) (by rfl) (by rfl)).1 (by rfl)
  exact ⟨h.1, h.2.1⟩

/-! ## C7: the removal planner and InUse -/

/-- The S5 module list: three loaded modules, each providing the service of
its own name. -/
def mlS5 : ModuleListM :=
  ⟨["kvs", "content", "content-backing"],
   [("kvs", "kvs"), ("content", "content"), ("content-backing", "content-backing")]⟩

/-- S5 as literally written in the spec: the dependencies are `requires`
edges only. -/
def dbS5req : TaskDB :=
  ((TaskDB.empty.add { Task.mk0 "kvs" with requires := ["content"] }).add
    { Task.mk0 "content" with requires := ["content-backing"] }).add
    (Task.mk0 "content-backing")

/-- S5 with the same dependencies also spelled as `after` edges, which is
what `get_deps` — and therefore the removal planner — actually consumes. -/
def dbS5after : TaskDB :=
  ((TaskDB.empty.add
      { Task.mk0 "kvs" with requires := ["content"], after := ["content"] }).add
    { Task.mk0 "content" with
        requires := ["content-backing"], after := ["content-backing"] }).add
    (Task.mk0 "content-backing")

/-- **C7** counterexample: with the S5 scenario exactly as the claim states
it (`requires` edges only), removing `content-backing` alone does **not**
yield InUse — the reverse-dependency graph is built from `get_deps`, which
reads `after`/`before` edges and ignores `requires`, so the request
succeeds; and even with the edges spelled as `after`, removing `kvs` alone
does not remove only `kvs`: emptied reverse-dependency sets cascade, so
`content` and `content-backing` are auto-removed too. -/
theorem s5_requires_only_no_inuse :
    (solve_modules_remove dbS5req mlS5 ["content-backing"] 20 =
        some (.ok (["content-backing"], [("content-backing", [])]))
      ∧ ¬∃ e, solve_modules_remove dbS5req mlS5 ["content-backing"] 20 =
          some (.error e))
    ∧ solve_modules_remove dbS5after mlS5 ["kvs"] 20 =
        some (.ok (["kvs", "content-backing", "content"],
          [("kvs", []), ("content-backing", ["content"]), ("content", ["kvs"])])) := by
  refine ⟨⟨rfl, ?_⟩, rfl⟩
  rintro ⟨e, he⟩
  rw [(show solve_modules_remove dbS5req mlS5 ["content-backing"] 20 =
      some (Except.ok (["content-backing"], [("content-backing", [])])) from rfl)]
    at he
  exact Except.noConfusion (Option.some.inj he)

/-- **C7 (amended).** Whenever the reverse-dependency transitive closure
completes, the planner fails — with the `InUse` message naming the module
and its dependents — exactly when some entry of the final removal list
still has a non-empty reverse-dependency set in the mutated copy; the sets
are keyed and filtered by `after`/`before` dependency edges, not by
`requires`. -/
theorem solve_modules_remove_inuse (db : TaskDB) (mlist : ModuleListM)
    (modules0 : List String) (fuel : Nat) (rdCopy : RDeps)
    (modulesF : List String) (rdeps : RDeps)
    (hrc : removalClosure db mlist modules0 fuel =
      some (.ok (rdCopy, modulesF, rdeps))) :
    (∃ e, solve_modules_remove db mlist modules0 fuel = some (.error e)) ↔
      ∃ name ∈ modulesF, rdLookup rdCopy (some name) ≠ [] := by
  unfold solve_modules_remove
  rw [hrc]
  simp only []
  cases hf : modulesF.find? (fun name => !(rdLookup rdCopy (some name)).isEmpty) with
  | some name =>
    simp only []
    constructor
    · intro _
      refine ⟨name, List.mem_of_find?_eq_some hf, ?_⟩
      have h2 := List.find?_some hf
      simp at h2
      exact h2
    · intro _
      exact ⟨name ++ " still in use by "
        ++ String.intercalate ", " (rdLookup rdCopy (some name)), rfl⟩
  | none =>
    simp only []
    constructor
    · rintro ⟨e, he⟩
      exact Except.noConfusion (Option.some.inj he)
    · rintro ⟨name, hmem, hne⟩
      have h2 := List.find?_eq_none.mp hf name hmem
      simp at h2
      exact absurd h2 hne

/-- Witness for C7: with the S5 dependencies spelled as `after` edges,
removing `content-backing` alone is the InUse error. -/
theorem solve_modules_remove_inuse_witness :
    ∃ e, solve_modules_remove dbS5after mlS5 ["content-backing"] 20 =
      some (.error e) := by
  exact (solve_modules_remove_inuse dbS5after mlS5 ["content-backing"] 20
    [(some "content", ["kvs"]), (some "content-backing", ["content"])]
    ["content-backing"]
    [(some "content", ["kvs"]), (some "content-backing", ["content"])]
    (by rfl)).mpr ⟨"content-backing", by simp, by decide⟩

end Modprobe
